import Mathlib

/-!
Verification of the capability-set core of the `capctl` crate: the `CapSet`
bitmask and its iterator (`src/caps/capset.rs`) and the `FileCaps`
extended-attribute codec (`src/caps/file.rs`).  Machine integers are
modelled as `Nat`, with explicit truncation (`% 2 ^ w`, `&&&` with a mask)
exactly where the Rust code casts or masks.  Byte buffers are `List Nat`
with every element below 256.
-/

/-- Modelled from the spec: the capability enumeration (`Cap`, `NUM_CAPS`
in the missing `caps/mod.rs`) is a closed, append-only catalog of
capabilities with stable bit positions `0 .. NUM_CAPS-1`.  The kernel
catalog pinned by the test vectors of the repository (SYSLOG at bit 34,
WAKE_ALARM at bit 35) has 41 entries, ending at CHECKPOINT_RESTORE = 40. -/
def NUM_CAPS : Nat := 41

/-- Modelled from the spec: `CAP_BITMASK` (missing `caps/mod.rs`) is the
union of all valid capability bit positions, i.e. ones at bits
`0 .. NUM_CAPS-1`. -/
def CAP_BITMASK : Nat := 2 ^ NUM_CAPS - 1

/-- Modelled from the spec: a capability is an identifier with a fixed bit
position below `NUM_CAPS`. -/
abbrev Cap : Type := Fin NUM_CAPS

/-- Modelled from the spec: `Cap::from_u8` (missing `caps/mod.rs`) returns
the capability at the given bit position when that position is in range,
and `None` otherwise. -/
def Cap.from_u8 (i : Nat) : Option Cap :=
  if h : i < NUM_CAPS then some ⟨i, h⟩ else none

/-- Modelled from the spec: `Cap::to_single_bitfield` (missing
`caps/mod.rs`) is the one-bit mask at the bit position of the
capability. -/
def Cap.to_single_bitfield (c : Cap) : Nat := 1 <<< c.val

/-- Bitwise NOT at width 64, as the Rust `!` operator on a `u64`. -/
def u64not (x : Nat) : Nat := (2 ^ 64 - 1) ^^^ x

/-- Fuel-indexed binary population count; fuel 64 is exact for any `u64`
value. -/
def countOnesAux : Nat → Nat → Nat
  | 0, _ => 0
  | fuel + 1, n => n % 2 + countOnesAux fuel (n / 2)

/-- Population count of a `u64` value, as `u64::count_ones`. -/
def countOnes (n : Nat) : Nat := countOnesAux 64 n

/-- Fuel-indexed binary length; fuel 64 is exact for any `u64` value. -/
def bitLenAux : Nat → Nat → Nat
  | 0, _ => 0
  | fuel + 1, n => if n = 0 then 0 else bitLenAux fuel (n / 2) + 1

/-- Bit length of a `u64` value, i.e. `64 - n.leading_zeros()` in the
Rust source. -/
def bitLen (n : Nat) : Nat := bitLenAux 64 n

/-- The `CapSet` structure of `capset.rs`: a set of capabilities stored as
a `u64` bitmask. -/
structure CapSet where
  bits : Nat
  deriving DecidableEq

/-- The documented invariant of `CapSet`: no bit outside
`[0, NUM_CAPS)` is set (the `u64` holds a value below `2 ^ NUM_CAPS`). -/
def CapSet.valid (s : CapSet) : Prop := s.bits < 2 ^ NUM_CAPS

instance (s : CapSet) : Decidable s.valid := by
  unfold CapSet.valid
  infer_instance

/-- `CapSet::empty`. -/
def CapSet.empty : CapSet := ⟨0⟩

/-- `CapSet::is_empty`. -/
def CapSet.is_empty (s : CapSet) : Bool := s.bits == 0

/-- `CapSet::size`: population count of the bitmask. -/
def CapSet.size (s : CapSet) : Nat := countOnes s.bits

/-- `CapSet::has`. -/
def CapSet.has (s : CapSet) (c : Cap) : Bool :=
  s.bits &&& c.to_single_bitfield != 0

/-- `CapSet::add`. -/
def CapSet.add (s : CapSet) (c : Cap) : CapSet :=
  ⟨s.bits ||| c.to_single_bitfield⟩

/-- `CapSet::drop`. -/
def CapSet.drop (s : CapSet) (c : Cap) : CapSet :=
  ⟨s.bits &&& u64not c.to_single_bitfield⟩

/-- `CapSet::set_state`. -/
def CapSet.set_state (s : CapSet) (c : Cap) (val : Bool) : CapSet :=
  if val then s.add c else s.drop c

/-- `CapSet::union`. -/
def CapSet.union (s other : CapSet) : CapSet := ⟨s.bits ||| other.bits⟩

/-- `CapSet::intersection`. -/
def CapSet.intersection (s other : CapSet) : CapSet :=
  ⟨s.bits &&& other.bits⟩

/-- `CapSet::from_bitmask_truncate`: masks against `CAP_BITMASK` instead
of failing. -/
def CapSet.from_bitmask_truncate (bitmask : Nat) : CapSet :=
  ⟨bitmask &&& CAP_BITMASK⟩

/-- `CapSet::from_bitmasks_u32`: combine a low and a high 32-bit word. -/
def CapSet.from_bitmasks_u32 (lower upper : Nat) : CapSet :=
  CapSet.from_bitmask_truncate ((upper <<< 32) ||| lower)

/-- The `Not` impl for `CapSet`: complement truncated to `CAP_BITMASK`. -/
def CapSet.compl (s : CapSet) : CapSet :=
  ⟨u64not s.bits &&& CAP_BITMASK⟩

/-- The `BitXor` impl for `CapSet`. -/
def CapSet.xor (s rhs : CapSet) : CapSet := ⟨s.bits ^^^ rhs.bits⟩

/-- The `Sub` impl for `CapSet`: `self.bits & !rhs.bits`. -/
def CapSet.diff (s rhs : CapSet) : CapSet := ⟨s.bits &&& u64not rhs.bits⟩

/-- The `CapSetIterator` structure of `capset.rs`: a set plus a cursor. -/
structure CapSetIterator where
  set : CapSet
  i : Nat
  deriving DecidableEq

/-- `CapSet::iter` / `IntoIterator for CapSet`: a fresh iterator with
cursor 0. -/
def CapSet.iter (s : CapSet) : CapSetIterator := ⟨s, 0⟩

/-- The scanning loop of `CapSetIterator::next`: starting at cursor `i`,
while `Cap::from_u8(i)` succeeds, advance the cursor and yield the first
capability whose bit is set.  Returns the yielded element (if any) and the
final cursor.  The fuel only bounds the recursion; `NUM_CAPS` fuel is
enough from any cursor position, because `Cap::from_u8` fails at and above
`NUM_CAPS`. -/
def nextAux : Nat → Nat → Nat → Option Cap × Nat
  | 0, _, i => (none, i)
  | fuel + 1, bits, i =>
    match Cap.from_u8 i with
    | none => (none, i)
    | some cap =>
      if bits &&& cap.to_single_bitfield != 0 then (some cap, i + 1)
      else nextAux fuel bits (i + 1)

/-- `CapSetIterator::next` (state-passing form: the yielded element and
the updated iterator). -/
def CapSetIterator.next (it : CapSetIterator) : Option Cap × CapSetIterator :=
  ((nextAux NUM_CAPS it.set.bits it.i).1,
   ⟨it.set, (nextAux NUM_CAPS it.set.bits it.i).2⟩)

/-- `ExactSizeIterator::len` for `CapSetIterator`: ones of the bitmask at
or above the cursor. -/
def CapSetIterator.len (it : CapSetIterator) : Nat :=
  countOnes (it.set.bits >>> it.i)

/-- `Iterator::last` for `CapSetIterator`: computed from the bit length of
the bitmask without scanning. -/
def CapSetIterator.last (it : CapSetIterator) : Option Cap :=
  if it.i < bitLen it.set.bits then Cap.from_u8 (bitLen it.set.bits - 1)
  else none

/-- Modelled from the spec: `VFS_CAP_REVISION_MASK` (missing
`constants.rs`) selects the version discriminant inside the magic word.
The spec vector decoding `00 00 00 01 ..` as version 1 pins the
discriminant to the high byte of the little-endian magic word, as in the
kernel headers. -/
def VFS_CAP_REVISION_MASK : Nat := 0xFF000000

/-- Modelled from the spec: `VFS_CAP_FLAGS_MASK` (missing `constants.rs`)
is the complement of the revision mask inside the 32-bit magic word. -/
def VFS_CAP_FLAGS_MASK : Nat := 0x00FFFFFF

/-- Modelled from the spec: `VFS_CAP_FLAGS_EFFECTIVE` (missing
`constants.rs`), the only defined flag, pinned to bit 0 by the repository
test vector `01 00 00 02 ..` decoding with the effective bit set. -/
def VFS_CAP_FLAGS_EFFECTIVE : Nat := 0x000001

/-- Modelled from the spec: `VFS_CAP_REVISION_1` (missing
`constants.rs`). -/
def VFS_CAP_REVISION_1 : Nat := 0x01000000

/-- Modelled from the spec: `VFS_CAP_REVISION_2` (missing
`constants.rs`). -/
def VFS_CAP_REVISION_2 : Nat := 0x02000000

/-- Modelled from the spec: `VFS_CAP_REVISION_3` (missing
`constants.rs`). -/
def VFS_CAP_REVISION_3 : Nat := 0x03000000

/-- Modelled from the spec: `XATTR_CAPS_SZ_1` (missing `constants.rs`),
the exact byte length of a version-1 attribute. -/
def XATTR_CAPS_SZ_1 : Nat := 12

/-- Modelled from the spec: `XATTR_CAPS_SZ_2` (missing `constants.rs`),
the exact byte length of a version-2 attribute. -/
def XATTR_CAPS_SZ_2 : Nat := 20

/-- Modelled from the spec: `XATTR_CAPS_SZ_3` (missing `constants.rs`),
the exact byte length of a version-3 attribute. -/
def XATTR_CAPS_SZ_3 : Nat := 24

/-- The `libc::EINVAL` error code used by `unpack_attrs` for every decode
failure. -/
def EINVAL : Nat := 22

/-- The `FileCaps` structure of `file.rs`.  `rootid` is a `u32`
(`libc::uid_t`), modelled as a `Nat` below `2 ^ 32`. -/
structure FileCaps where
  effective : Bool
  permitted : CapSet
  inheritable : CapSet
  rootid : Option Nat
  deriving DecidableEq

/-- Well-formedness of a `FileCaps` value as its Rust representation
guarantees it: both sets satisfy the `CapSet` invariant and the root id
fits in a `u32`. -/
def FileCaps.wf (fc : FileCaps) : Prop :=
  fc.permitted.valid ∧ fc.inheritable.valid ∧
    (match fc.rootid with
     | some r => r < 2 ^ 32
     | none => True)

instance (fc : FileCaps) : Decidable fc.wf := by
  unfold FileCaps.wf
  cases fc.rootid <;> infer_instance

deriving instance DecidableEq for Except

/-- A byte buffer: every element of the list is an octet. -/
def bytesWf (attrs : List Nat) : Prop := ∀ b ∈ attrs, b < 256

instance (attrs : List Nat) : Decidable (bytesWf attrs) := by
  unfold bytesWf
  infer_instance

/-- `u32::from_le_bytes` on four octets. -/
def u32_from_le_bytes (b0 b1 b2 b3 : Nat) : Nat :=
  b0 + b1 * 2 ^ 8 + b2 * 2 ^ 16 + b3 * 2 ^ 24

/-- `u32::to_le_bytes`. -/
def u32_to_le_bytes (x : Nat) : List Nat :=
  [x % 256, x / 2 ^ 8 % 256, x / 2 ^ 16 % 256, x / 2 ^ 24 % 256]

/-- The little-endian `u32` read from four consecutive bytes of a buffer,
as `u32::from_le_bytes(attrs[k..k+4].try_into().unwrap())`; out-of-range
positions (never hit by `unpack_attrs` after its length checks) read 0. -/
def le32at (attrs : List Nat) (k : Nat) : Nat :=
  u32_from_le_bytes (attrs.getD k 0) (attrs.getD (k + 1) 0)
    (attrs.getD (k + 2) 0) (attrs.getD (k + 3) 0)

/-- The local `magic` of `unpack_attrs`: the little-endian `u32` at bytes
0..4. -/
def magicOf (attrs : List Nat) : Nat := le32at attrs 0

/-- The local `version` of `unpack_attrs`. -/
def versionOf (attrs : List Nat) : Nat :=
  magicOf attrs &&& VFS_CAP_REVISION_MASK

/-- The local `flags` of `unpack_attrs`. -/
def flagsOf (attrs : List Nat) : Nat :=
  magicOf attrs &&& VFS_CAP_FLAGS_MASK

/-- The local `effective` of `unpack_attrs`. -/
def effectiveOf (attrs : List Nat) : Bool :=
  flagsOf attrs &&& VFS_CAP_FLAGS_EFFECTIVE != 0

/-- `FileCaps::unpack_attrs` of `file.rs`: decode the raw extended
attribute.  All failures carry `EINVAL`. -/
def FileCaps.unpack_attrs (attrs : List Nat) : Except Nat FileCaps :=
  if attrs.length < 4 then Except.error EINVAL
  else if versionOf attrs = VFS_CAP_REVISION_2 ∧
      attrs.length = XATTR_CAPS_SZ_2 then
    Except.ok
      { effective := effectiveOf attrs
        permitted :=
          CapSet.from_bitmasks_u32 (le32at attrs 4) (le32at attrs 12)
        inheritable :=
          CapSet.from_bitmasks_u32 (le32at attrs 8) (le32at attrs 16)
        rootid := none }
  else if versionOf attrs = VFS_CAP_REVISION_3 ∧
      attrs.length = XATTR_CAPS_SZ_3 then
    Except.ok
      { effective := effectiveOf attrs
        permitted :=
          CapSet.from_bitmasks_u32 (le32at attrs 4) (le32at attrs 12)
        inheritable :=
          CapSet.from_bitmasks_u32 (le32at attrs 8) (le32at attrs 16)
        rootid := some (le32at attrs 20) }
  else if versionOf attrs = VFS_CAP_REVISION_1 ∧
      attrs.length = XATTR_CAPS_SZ_1 then
    Except.ok
      { effective := effectiveOf attrs
        permitted := CapSet.from_bitmask_truncate (le32at attrs 4)
        inheritable := CapSet.from_bitmask_truncate (le32at attrs 8)
        rootid := none }
  else Except.error EINVAL

/-- `FileCaps::pack_into` composed with the truncation of
`FileCaps::pack_attrs`: the encoded attribute bytes.  The low 32 bits of
each set go at offsets 4 and 8, the high 32 bits at offsets 12 and 16
(the casts `as u32` of the Rust source are the `% 2 ^ 32` and `>>> 32`
here), and the root id, when present, at offset 20. -/
def FileCaps.pack_attrs (fc : FileCaps) : List Nat :=
  let magic0 := if fc.rootid.isSome then VFS_CAP_REVISION_3
                else VFS_CAP_REVISION_2
  let magic := if fc.effective then magic0 ||| VFS_CAP_FLAGS_EFFECTIVE
               else magic0
  u32_to_le_bytes magic ++
    u32_to_le_bytes (fc.permitted.bits % 2 ^ 32) ++
    u32_to_le_bytes (fc.inheritable.bits % 2 ^ 32) ++
    u32_to_le_bytes (fc.permitted.bits >>> 32 % 2 ^ 32) ++
    u32_to_le_bytes (fc.inheritable.bits >>> 32 % 2 ^ 32) ++
    (match fc.rootid with
     | some rootid => u32_to_le_bytes rootid
     | none => [])

/-! Helper lemmas about the bit-level arithmetic. -/

lemma shiftLeft_one (v : Nat) : 1 <<< v = 2 ^ v := by
  simp [Nat.shiftLeft_eq]

lemma and_two_pow_ne_zero (x v : Nat) : x &&& 2 ^ v ≠ 0 ↔ x.testBit v := by
  constructor
  · intro h
    obtain ⟨i, hi⟩ := Nat.ne_zero_implies_bit_true h
    rw [Nat.testBit_and, Nat.testBit_two_pow] at hi
    rcases Bool.and_eq_true_iff.mp hi with ⟨h1, h2⟩
    rcases of_decide_eq_true h2 with rfl
    exact h1
  · intro h hz
    have : (x &&& 2 ^ v).testBit v = true := by
      simp [Nat.testBit_and, h, Nat.testBit_two_pow_self]
    rw [hz] at this
    simp [Nat.zero_testBit] at this

lemma has_eq_testBit (s : CapSet) (c : Cap) :
    s.has c = s.bits.testBit c.val := by
  unfold CapSet.has Cap.to_single_bitfield
  rw [shiftLeft_one]
  by_cases h : s.bits.testBit c.val
  · simp [h, (and_two_pow_ne_zero s.bits c.val).mpr h]
  · have : ¬s.bits &&& 2 ^ c.val ≠ 0 := fun hne =>
      h ((and_two_pow_ne_zero s.bits c.val).mp hne)
    simp only [ne_eq, not_not] at this
    simp [h, this]

lemma u64not_testBit (x j : Nat) (hx : x < 2 ^ 64) :
    (u64not x).testBit j = (decide (j < 64) && !x.testBit j) := by
  unfold u64not
  rw [Nat.testBit_xor, Nat.testBit_two_pow_sub_one]
  by_cases h : j < 64
  · simp [h]
  · have : x.testBit j = false :=
      Nat.testBit_lt_two_pow
        (lt_of_lt_of_le hx (Nat.pow_le_pow_right (by omega) (by omega)))
    simp [h, this]

lemma testBit_false_of_lt {x : Nat} {n : Nat} (hx : x < 2 ^ n) (j : Nat)
    (hj : n ≤ j) : x.testBit j = false :=
  Nat.testBit_lt_two_pow
    (lt_of_lt_of_le hx (Nat.pow_le_pow_right (by omega) hj))

lemma flags_mask_eq : VFS_CAP_FLAGS_MASK = 2 ^ 24 - 1 := rfl

lemma cap_bitmask_eq : CAP_BITMASK = 2 ^ NUM_CAPS - 1 := rfl

lemma and_flags_mask (x : Nat) : x &&& VFS_CAP_FLAGS_MASK = x % 2 ^ 24 := by
  rw [flags_mask_eq, Nat.and_pow_two_sub_one_eq_mod]

lemma and_cap_bitmask (x : Nat) : x &&& CAP_BITMASK = x % 2 ^ NUM_CAPS := by
  rw [cap_bitmask_eq, Nat.and_pow_two_sub_one_eq_mod]

lemma and_revision_mask (x : Nat) (hx : x < 2 ^ 32) :
    x &&& VFS_CAP_REVISION_MASK = x >>> 24 <<< 24 := by
  have h1 : VFS_CAP_REVISION_MASK = (2 ^ 8 - 1) <<< 24 := rfl
  apply Nat.eq_of_testBit_eq
  intro j
  rw [h1]
  simp only [Nat.testBit_and, Nat.testBit_shiftLeft, Nat.testBit_shiftRight,
    Nat.testBit_two_pow_sub_one]
  by_cases h24 : 24 ≤ j
  · by_cases h32 : j < 32
    · have hj : 24 + (j - 24) = j := by omega
      simp [h24, hj, show j - 24 < 8 by omega]
    · have hx' : x.testBit j = false := testBit_false_of_lt hx j (by omega)
      have hj : 24 + (j - 24) = j := by omega
      simp [h24, hj, hx', show ¬(j - 24 < 8) by omega]
  · simp [h24]

lemma version_eq_iff (x n : Nat) (hx : x < 2 ^ 32) :
    x &&& VFS_CAP_REVISION_MASK = n <<< 24 ↔ x / 2 ^ 24 = n := by
  rw [and_revision_mask x hx, Nat.shiftLeft_eq, Nat.shiftLeft_eq,
    Nat.shiftRight_eq_div_pow]
  constructor
  · intro h
    exact Nat.eq_of_mul_eq_mul_right (by norm_num) h
  · intro h
    rw [h]

lemma lor_high_low (hi lo : Nat) (hlo : lo < 2 ^ 32) :
    hi <<< 32 ||| lo = hi * 2 ^ 32 + lo := by
  have hdiv : (hi <<< 32 ||| lo) >>> 32 = hi := by
    apply Nat.eq_of_testBit_eq
    intro j
    rw [Nat.testBit_shiftRight, Nat.testBit_or, Nat.testBit_shiftLeft]
    have hlo' : lo.testBit (32 + j) = false :=
      testBit_false_of_lt hlo (32 + j) (by omega)
    simp [hlo', show 32 ≤ 32 + j by omega]
  have hmod : (hi <<< 32 ||| lo) % 2 ^ 32 = lo := by
    rw [← Nat.and_pow_two_sub_one_eq_mod]
    apply Nat.eq_of_testBit_eq
    intro j
    rw [Nat.testBit_and, Nat.testBit_or, Nat.testBit_shiftLeft,
      Nat.testBit_two_pow_sub_one]
    by_cases h : j < 32
    · simp [h, show ¬32 ≤ j by omega]
    · have hlo' : lo.testBit j = false := testBit_false_of_lt hlo j (by omega)
      simp [h, hlo']
  have := Nat.div_add_mod (hi <<< 32 ||| lo) (2 ^ 32)
  rw [← Nat.shiftRight_eq_div_pow] at this
  rw [hdiv, hmod] at this
  omega

lemma u32_bytes_round (x : Nat) (hx : x < 2 ^ 32) :
    u32_from_le_bytes (x % 256) (x / 2 ^ 8 % 256) (x / 2 ^ 16 % 256)
      (x / 2 ^ 24 % 256) = x := by
  unfold u32_from_le_bytes
  omega

lemma u32_le_round (b0 b1 b2 b3 : Nat) (h0 : b0 < 256) (h1 : b1 < 256)
    (h2 : b2 < 256) (h3 : b3 < 256) :
    u32_to_le_bytes (u32_from_le_bytes b0 b1 b2 b3) = [b0, b1, b2, b3] := by
  unfold u32_to_le_bytes u32_from_le_bytes
  simp only [List.cons.injEq, and_true]
  refine ⟨by omega, by omega, by omega, by omega⟩

lemma getD_lt_256 (l : List Nat) (h : bytesWf l) (k : Nat) :
    l.getD k 0 < 256 := by
  induction l generalizing k with
  | nil => simp [List.getD]
  | cons a t ih =>
    cases k with
    | zero => simpa using h a (by simp)
    | succ k2 =>
      simp only [List.getD_cons_succ]
      exact ih (fun b hb => h b (by simp [hb])) k2

lemma le32at_lt (attrs : List Nat) (h : bytesWf attrs) (k : Nat) :
    le32at attrs k < 2 ^ 32 := by
  unfold le32at u32_from_le_bytes
  have h0 := getD_lt_256 attrs h k
  have h1 := getD_lt_256 attrs h (k + 1)
  have h2 := getD_lt_256 attrs h (k + 2)
  have h3 := getD_lt_256 attrs h (k + 3)
  omega

lemma from_bitmasks_split (bits : Nat) (h : bits < 2 ^ NUM_CAPS) :
    CapSet.from_bitmasks_u32 (bits % 2 ^ 32) (bits >>> 32 % 2 ^ 32) =
      ⟨bits⟩ := by
  unfold CapSet.from_bitmasks_u32 CapSet.from_bitmask_truncate
  have h64 : bits < 2 ^ 64 := lt_of_lt_of_le h (by norm_num [NUM_CAPS])
  have hsh : bits >>> 32 % 2 ^ 32 = bits >>> 32 := by
    apply Nat.mod_eq_of_lt
    rw [Nat.shiftRight_eq_div_pow]
    omega
  rw [hsh, lor_high_low _ _ (Nat.mod_lt _ (by norm_num)),
    Nat.shiftRight_eq_div_pow, and_cap_bitmask]
  have hb : bits / 2 ^ 32 * 2 ^ 32 + bits % 2 ^ 32 = bits := by omega
  rw [hb, Nat.mod_eq_of_lt h]

lemma num_caps_eq : NUM_CAPS = 41 := rfl

lemma from_bitmask_truncate_valid (m : Nat) :
    (CapSet.from_bitmask_truncate m).valid := by
  unfold CapSet.from_bitmask_truncate CapSet.valid
  simp only [and_cap_bitmask]
  exact Nat.mod_lt _ (Nat.two_pow_pos _)

lemma valid_lt_64 (s : CapSet) (h : s.valid) : s.bits < 2 ^ 64 :=
  lt_of_lt_of_le h (Nat.pow_le_pow_right (by omega) (by rw [num_caps_eq]; omega))

lemma and_le_left_lt {x y n : Nat} (hx : x < 2 ^ n) : x &&& y < 2 ^ n :=
  lt_of_le_of_lt (Nat.and_le_left) hx

/-- C6: every `CapSet` value observable by a caller satisfies the
invariant that no bit at or above `NUM_CAPS` is set: construction from a
raw 64-bit integer masks against `CAP_BITMASK` rather than failing, every
operation preserves the invariant, decoding produces only invariant
values, and the complement of the full set is the empty set. -/
theorem capset_invariant :
    (∀ m : Nat, (CapSet.from_bitmask_truncate m).valid ∧
      (CapSet.from_bitmask_truncate m).bits = m &&& CAP_BITMASK) ∧
    (∀ (s : CapSet) (c : Cap), s.valid → (s.add c).valid) ∧
    (∀ (s : CapSet) (c : Cap), s.valid → (s.drop c).valid) ∧
    (∀ (s : CapSet) (c : Cap) (v : Bool), s.valid → (s.set_state c v).valid) ∧
    (∀ s other : CapSet, s.valid → other.valid → (s.union other).valid) ∧
    (∀ s other : CapSet, s.valid → (s.intersection other).valid) ∧
    (∀ s : CapSet, s.compl.valid) ∧
    (∀ s other : CapSet, s.valid → other.valid → (s.xor other).valid) ∧
    (∀ s other : CapSet, s.valid → (s.diff other).valid) ∧
    (∀ (attrs : List Nat) (fc : FileCaps),
      FileCaps.unpack_attrs attrs = Except.ok fc →
        fc.permitted.valid ∧ fc.inheritable.valid) ∧
    CapSet.compl ⟨CAP_BITMASK⟩ = CapSet.empty := by
  have hadd : ∀ (s : CapSet) (c : Cap), s.valid → (s.add c).valid := by
    intro s c hs
    unfold CapSet.add CapSet.valid Cap.to_single_bitfield
    rw [shiftLeft_one]
    exact Nat.or_lt_two_pow hs (Nat.pow_lt_pow_right (by omega) c.isLt)
  have hdrop : ∀ (s : CapSet) (c : Cap), s.valid → (s.drop c).valid := by
    intro s c hs
    exact and_le_left_lt hs
  refine ⟨?_, hadd, hdrop, ?_, ?_, ?_, ?_, ?_, ?_, ?_, ?_⟩
  · intro m
    exact ⟨from_bitmask_truncate_valid m, rfl⟩
  · intro s c v hs
    unfold CapSet.set_state
    cases v with
    | true => simpa using hadd s c hs
    | false => simpa using hdrop s c hs
  · intro s other hs ho
    exact Nat.or_lt_two_pow hs ho
  · intro s other hs
    exact and_le_left_lt hs
  · intro s
    exact from_bitmask_truncate_valid _
  · intro s other hs ho
    exact Nat.xor_lt_two_pow hs ho
  · intro s other hs
    exact and_le_left_lt hs
  · intro attrs fc h
    unfold FileCaps.unpack_attrs at h
    split at h
    · exact absurd h (by simp)
    · split at h
      · rcases (Except.ok.injEq _ _).mp h with rfl
        exact ⟨from_bitmask_truncate_valid _, from_bitmask_truncate_valid _⟩
      · split at h
        · rcases (Except.ok.injEq _ _).mp h with rfl
          exact ⟨from_bitmask_truncate_valid _, from_bitmask_truncate_valid _⟩
        · split at h
          · rcases (Except.ok.injEq _ _).mp h with rfl
            exact ⟨from_bitmask_truncate_valid _, from_bitmask_truncate_valid _⟩
          · exact absurd h (by simp)
  · decide

/-- Witness for C6 at concrete inputs. -/
theorem capset_invariant_witness :
    (CapSet.add ⟨5⟩ ⟨0, by decide⟩).valid ∧
    (CapSet.drop ⟨5⟩ ⟨2, by decide⟩).valid ∧
    (CapSet.set_state ⟨5⟩ ⟨3, by decide⟩ true).valid ∧
    (CapSet.union ⟨5⟩ ⟨9⟩).valid ∧
    (CapSet.intersection ⟨5⟩ ⟨9⟩).valid ∧
    (CapSet.xor ⟨5⟩ ⟨9⟩).valid ∧
    (CapSet.diff ⟨5⟩ ⟨9⟩).valid ∧
    ((FileCaps.unpack_attrs [0, 0, 0, 1, 1, 0, 0, 0, 1, 0, 0, 0] =
        Except.ok ⟨false, ⟨1⟩, ⟨1⟩, none⟩) ∧
      (⟨1⟩ : CapSet).valid ∧ (⟨1⟩ : CapSet).valid) :=
  ⟨capset_invariant.2.1 ⟨5⟩ ⟨0, by decide⟩ (by decide),
   capset_invariant.2.2.1 ⟨5⟩ ⟨2, by decide⟩ (by decide),
   capset_invariant.2.2.2.1 ⟨5⟩ ⟨3, by decide⟩ true (by decide),
   capset_invariant.2.2.2.2.1 ⟨5⟩ ⟨9⟩ (by decide) (by decide),
   capset_invariant.2.2.2.2.2.1 ⟨5⟩ ⟨9⟩ (by decide),
   capset_invariant.2.2.2.2.2.2.2.1 ⟨5⟩ ⟨9⟩ (by decide) (by decide),
   capset_invariant.2.2.2.2.2.2.2.2.1 ⟨5⟩ ⟨9⟩ (by decide),
   by
    have hd : FileCaps.unpack_attrs [0, 0, 0, 1, 1, 0, 0, 0, 1, 0, 0, 0] =
        Except.ok ⟨false, ⟨1⟩, ⟨1⟩, none⟩ := by decide
    exact ⟨hd, capset_invariant.2.2.2.2.2.2.2.2.2.1 _ _ hd⟩⟩

/-- C7: for invariant-satisfying sets, union with the complement is the
full set, intersection with the complement is empty, and set difference
equals intersection with the complement. -/
theorem capset_algebra (a b : CapSet) (ha : a.valid) (hb : b.valid) :
    a.union a.compl = ⟨CAP_BITMASK⟩ ∧
    a.intersection a.compl = CapSet.empty ∧
    a.diff b = a.intersection b.compl := by
  have ha64 := valid_lt_64 a ha
  have hb64 := valid_lt_64 b hb
  refine ⟨?_, ?_, ?_⟩
  · unfold CapSet.union CapSet.compl
    congr 1
    apply Nat.eq_of_testBit_eq
    intro j
    rw [Nat.testBit_or, Nat.testBit_and, u64not_testBit _ _ ha64,
      cap_bitmask_eq, Nat.testBit_two_pow_sub_one]
    by_cases hj : j < NUM_CAPS
    · have hj64 : j < 64 := by rw [num_caps_eq] at hj; omega
      cases hab : a.bits.testBit j <;> simp [hj, hj64, hab]
    · have hab : a.bits.testBit j = false :=
        testBit_false_of_lt ha j (by omega)
      simp [hj, hab]
  · unfold CapSet.intersection CapSet.compl CapSet.empty
    congr 1
    apply Nat.eq_of_testBit_eq
    intro j
    rw [Nat.testBit_and, Nat.testBit_and, u64not_testBit _ _ ha64,
      cap_bitmask_eq, Nat.testBit_two_pow_sub_one, Nat.zero_testBit]
    cases hab : a.bits.testBit j <;> simp
  · unfold CapSet.diff CapSet.intersection CapSet.compl
    congr 1
    apply Nat.eq_of_testBit_eq
    intro j
    rw [Nat.testBit_and, Nat.testBit_and, Nat.testBit_and,
      u64not_testBit _ _ hb64, cap_bitmask_eq, Nat.testBit_two_pow_sub_one]
    by_cases hj : j < NUM_CAPS
    · simp [hj]
    · have hab : a.bits.testBit j = false :=
        testBit_false_of_lt ha j (by omega)
      simp [hj, hab]

/-- Witness for C7 at concrete inputs. -/
theorem capset_algebra_witness :
    CapSet.union ⟨5⟩ (CapSet.compl ⟨5⟩) = ⟨CAP_BITMASK⟩ ∧
    CapSet.intersection ⟨5⟩ (CapSet.compl ⟨5⟩) = CapSet.empty ∧
    CapSet.diff ⟨5⟩ ⟨9⟩ = CapSet.intersection ⟨5⟩ (CapSet.compl ⟨9⟩) :=
  capset_algebra ⟨5⟩ ⟨9⟩ (by decide) (by decide)

/-! Reduction lemmas for the decoder, generic in the buffer. -/

lemma unpack_v2 (L : List Nat) (hv : versionOf L = VFS_CAP_REVISION_2)
    (hlen : L.length = 20) :
    FileCaps.unpack_attrs L = Except.ok
      { effective := effectiveOf L
        permitted := CapSet.from_bitmasks_u32 (le32at L 4) (le32at L 12)
        inheritable := CapSet.from_bitmasks_u32 (le32at L 8) (le32at L 16)
        rootid := none } := by
  unfold FileCaps.unpack_attrs
  rw [if_neg (by omega), if_pos ⟨hv, by rw [hlen]; rfl⟩]

lemma unpack_v3 (L : List Nat) (hv : versionOf L = VFS_CAP_REVISION_3)
    (hlen : L.length = 24) :
    FileCaps.unpack_attrs L = Except.ok
      { effective := effectiveOf L
        permitted := CapSet.from_bitmasks_u32 (le32at L 4) (le32at L 12)
        inheritable := CapSet.from_bitmasks_u32 (le32at L 8) (le32at L 16)
        rootid := some (le32at L 20) } := by
  unfold FileCaps.unpack_attrs
  rw [if_neg (by omega),
    if_neg (by rw [hlen]; simp [XATTR_CAPS_SZ_2]),
    if_pos ⟨hv, by rw [hlen]; rfl⟩]

lemma unpack_v1 (L : List Nat) (hv : versionOf L = VFS_CAP_REVISION_1)
    (hlen : L.length = 12) :
    FileCaps.unpack_attrs L = Except.ok
      { effective := effectiveOf L
        permitted := CapSet.from_bitmask_truncate (le32at L 4)
        inheritable := CapSet.from_bitmask_truncate (le32at L 8)
        rootid := none } := by
  unfold FileCaps.unpack_attrs
  rw [if_neg (by omega), if_neg (by rw [hv, hlen]; decide),
    if_neg (by rw [hv, hlen]; decide), if_pos ⟨hv, by rw [hlen]; rfl⟩]

lemma unpack_err (L : List Nat)
    (h : L.length < 4 ∨
      (¬(versionOf L = VFS_CAP_REVISION_2 ∧ L.length = XATTR_CAPS_SZ_2) ∧
       ¬(versionOf L = VFS_CAP_REVISION_3 ∧ L.length = XATTR_CAPS_SZ_3) ∧
       ¬(versionOf L = VFS_CAP_REVISION_1 ∧ L.length = XATTR_CAPS_SZ_1))) :
    FileCaps.unpack_attrs L = Except.error EINVAL := by
  unfold FileCaps.unpack_attrs
  rcases h with h | ⟨h2, h3, h1⟩
  · rw [if_pos h]
  · by_cases h4 : L.length < 4
    · rw [if_pos h4]
    · rw [if_neg h4, if_neg h2, if_neg h3, if_neg h1]

/-! Reads at fixed offsets of an encoded buffer. -/

lemma versionOf_cons (m0 m1 m2 m3 : Nat) (rest : List Nat) :
    versionOf (m0 :: m1 :: m2 :: m3 :: rest) =
      u32_from_le_bytes m0 m1 m2 m3 &&& VFS_CAP_REVISION_MASK := rfl

lemma effectiveOf_cons (m0 m1 m2 m3 : Nat) (rest : List Nat) :
    effectiveOf (m0 :: m1 :: m2 :: m3 :: rest) =
      (u32_from_le_bytes m0 m1 m2 m3 &&& VFS_CAP_FLAGS_MASK &&&
        VFS_CAP_FLAGS_EFFECTIVE != 0) := rfl

lemma le32at_at4 (m0 m1 m2 m3 x : Nat) (rest : List Nat) (hx : x < 2 ^ 32) :
    le32at (m0 :: m1 :: m2 :: m3 :: (u32_to_le_bytes x ++ rest)) 4 = x := by
  have e : le32at (m0 :: m1 :: m2 :: m3 :: (u32_to_le_bytes x ++ rest)) 4 =
      u32_from_le_bytes (x % 256) (x / 2 ^ 8 % 256) (x / 2 ^ 16 % 256)
        (x / 2 ^ 24 % 256) := rfl
  rw [e, u32_bytes_round _ hx]

lemma le32at_at8 (m0 m1 m2 m3 x y : Nat) (rest : List Nat) (hy : y < 2 ^ 32) :
    le32at (m0 :: m1 :: m2 :: m3 ::
      (u32_to_le_bytes x ++ (u32_to_le_bytes y ++ rest))) 8 = y := by
  have e : le32at (m0 :: m1 :: m2 :: m3 ::
      (u32_to_le_bytes x ++ (u32_to_le_bytes y ++ rest))) 8 =
      u32_from_le_bytes (y % 256) (y / 2 ^ 8 % 256) (y / 2 ^ 16 % 256)
        (y / 2 ^ 24 % 256) := rfl
  rw [e, u32_bytes_round _ hy]

lemma le32at_at12 (m0 m1 m2 m3 x y z : Nat) (rest : List Nat)
    (hz : z < 2 ^ 32) :
    le32at (m0 :: m1 :: m2 :: m3 :: (u32_to_le_bytes x ++
      (u32_to_le_bytes y ++ (u32_to_le_bytes z ++ rest)))) 12 = z := by
  have e : le32at (m0 :: m1 :: m2 :: m3 :: (u32_to_le_bytes x ++
      (u32_to_le_bytes y ++ (u32_to_le_bytes z ++ rest)))) 12 =
      u32_from_le_bytes (z % 256) (z / 2 ^ 8 % 256) (z / 2 ^ 16 % 256)
        (z / 2 ^ 24 % 256) := rfl
  rw [e, u32_bytes_round _ hz]

lemma le32at_at16 (m0 m1 m2 m3 x y z w : Nat) (rest : List Nat)
    (hw : w < 2 ^ 32) :
    le32at (m0 :: m1 :: m2 :: m3 :: (u32_to_le_bytes x ++
      (u32_to_le_bytes y ++ (u32_to_le_bytes z ++
        (u32_to_le_bytes w ++ rest))))) 16 = w := by
  have e : le32at (m0 :: m1 :: m2 :: m3 :: (u32_to_le_bytes x ++
      (u32_to_le_bytes y ++ (u32_to_le_bytes z ++
        (u32_to_le_bytes w ++ rest))))) 16 =
      u32_from_le_bytes (w % 256) (w / 2 ^ 8 % 256) (w / 2 ^ 16 % 256)
        (w / 2 ^ 24 % 256) := rfl
  rw [e, u32_bytes_round _ hw]

lemma le32at_at20 (m0 m1 m2 m3 x y z w v : Nat) (rest : List Nat)
    (hv : v < 2 ^ 32) :
    le32at (m0 :: m1 :: m2 :: m3 :: (u32_to_le_bytes x ++
      (u32_to_le_bytes y ++ (u32_to_le_bytes z ++ (u32_to_le_bytes w ++
        (u32_to_le_bytes v ++ rest)))))) 20 = v := by
  have e : le32at (m0 :: m1 :: m2 :: m3 :: (u32_to_le_bytes x ++
      (u32_to_le_bytes y ++ (u32_to_le_bytes z ++ (u32_to_le_bytes w ++
        (u32_to_le_bytes v ++ rest)))))) 20 =
      u32_from_le_bytes (v % 256) (v / 2 ^ 8 % 256) (v / 2 ^ 16 % 256)
        (v / 2 ^ 24 % 256) := rfl
  rw [e, u32_bytes_round _ hv]

/-! Explicit byte shapes of the four encoder cases. -/

lemma pack_eq_v2f (pbits ibits : Nat) :
    FileCaps.pack_attrs ⟨false, ⟨pbits⟩, ⟨ibits⟩, none⟩ =
      0 :: 0 :: 0 :: 2 ::
        (u32_to_le_bytes (pbits % 2 ^ 32) ++
          (u32_to_le_bytes (ibits % 2 ^ 32) ++
            (u32_to_le_bytes (pbits >>> 32 % 2 ^ 32) ++
              (u32_to_le_bytes (ibits >>> 32 % 2 ^ 32) ++ [])))) := by
  norm_num [FileCaps.pack_attrs, VFS_CAP_REVISION_2, VFS_CAP_REVISION_3]
  norm_num [u32_to_le_bytes]

lemma pack_eq_v2t (pbits ibits : Nat) :
    FileCaps.pack_attrs ⟨true, ⟨pbits⟩, ⟨ibits⟩, none⟩ =
      1 :: 0 :: 0 :: 2 ::
        (u32_to_le_bytes (pbits % 2 ^ 32) ++
          (u32_to_le_bytes (ibits % 2 ^ 32) ++
            (u32_to_le_bytes (pbits >>> 32 % 2 ^ 32) ++
              (u32_to_le_bytes (ibits >>> 32 % 2 ^ 32) ++ [])))) := by
  norm_num [FileCaps.pack_attrs, VFS_CAP_REVISION_2, VFS_CAP_REVISION_3,
    VFS_CAP_FLAGS_EFFECTIVE]
  norm_num [u32_to_le_bytes]
  decide

lemma pack_eq_v3f (pbits ibits r : Nat) :
    FileCaps.pack_attrs ⟨false, ⟨pbits⟩, ⟨ibits⟩, some r⟩ =
      0 :: 0 :: 0 :: 3 ::
        (u32_to_le_bytes (pbits % 2 ^ 32) ++
          (u32_to_le_bytes (ibits % 2 ^ 32) ++
            (u32_to_le_bytes (pbits >>> 32 % 2 ^ 32) ++
              (u32_to_le_bytes (ibits >>> 32 % 2 ^ 32) ++
                (u32_to_le_bytes r ++ []))))) := by
  norm_num [FileCaps.pack_attrs, VFS_CAP_REVISION_2, VFS_CAP_REVISION_3]
  norm_num [u32_to_le_bytes]

lemma pack_eq_v3t (pbits ibits r : Nat) :
    FileCaps.pack_attrs ⟨true, ⟨pbits⟩, ⟨ibits⟩, some r⟩ =
      1 :: 0 :: 0 :: 3 ::
        (u32_to_le_bytes (pbits % 2 ^ 32) ++
          (u32_to_le_bytes (ibits % 2 ^ 32) ++
            (u32_to_le_bytes (pbits >>> 32 % 2 ^ 32) ++
              (u32_to_le_bytes (ibits >>> 32 % 2 ^ 32) ++
                (u32_to_le_bytes r ++ []))))) := by
  norm_num [FileCaps.pack_attrs, VFS_CAP_REVISION_2, VFS_CAP_REVISION_3,
    VFS_CAP_FLAGS_EFFECTIVE]
  norm_num [u32_to_le_bytes]
  decide

lemma unpack_pack_eq (fc : FileCaps) (h : fc.wf) :
    FileCaps.unpack_attrs fc.pack_attrs = Except.ok fc := by
  obtain ⟨hp, hi, hr⟩ := h
  rcases fc with ⟨eff, ⟨pbits⟩, ⟨ibits⟩, rid⟩
  have hp' : pbits < 2 ^ NUM_CAPS := hp
  have hi' : ibits < 2 ^ NUM_CAPS := hi
  have hp32 : pbits % 2 ^ 32 < 2 ^ 32 := Nat.mod_lt _ (by norm_num)
  have hi32 : ibits % 2 ^ 32 < 2 ^ 32 := Nat.mod_lt _ (by norm_num)
  have hph : pbits >>> 32 % 2 ^ 32 < 2 ^ 32 := Nat.mod_lt _ (by norm_num)
  have hih : ibits >>> 32 % 2 ^ 32 < 2 ^ 32 := Nat.mod_lt _ (by norm_num)
  have hsp := from_bitmasks_split pbits hp'
  have hsi := from_bitmasks_split ibits hi'
  rcases rid with _ | r
  · cases eff
    · rw [pack_eq_v2f, unpack_v2 _ (by rw [versionOf_cons]; decide)
          (by norm_num [u32_to_le_bytes]),
        le32at_at4 _ _ _ _ _ _ hp32, le32at_at8 _ _ _ _ _ _ _ hi32,
        le32at_at12 _ _ _ _ _ _ _ _ hph, le32at_at16 _ _ _ _ _ _ _ _ _ hih,
        effectiveOf_cons, hsp, hsi,
        (by decide : (u32_from_le_bytes 0 0 0 2 &&& VFS_CAP_FLAGS_MASK &&&
          VFS_CAP_FLAGS_EFFECTIVE != 0) = false)]
    · rw [pack_eq_v2t, unpack_v2 _ (by rw [versionOf_cons]; decide)
          (by norm_num [u32_to_le_bytes]),
        le32at_at4 _ _ _ _ _ _ hp32, le32at_at8 _ _ _ _ _ _ _ hi32,
        le32at_at12 _ _ _ _ _ _ _ _ hph, le32at_at16 _ _ _ _ _ _ _ _ _ hih,
        effectiveOf_cons, hsp, hsi,
        (by decide : (u32_from_le_bytes 1 0 0 2 &&& VFS_CAP_FLAGS_MASK &&&
          VFS_CAP_FLAGS_EFFECTIVE != 0) = true)]
  · have hr' : r < 2 ^ 32 := hr
    cases eff
    · rw [pack_eq_v3f, unpack_v3 _ (by rw [versionOf_cons]; decide)
          (by norm_num [u32_to_le_bytes]),
        le32at_at4 _ _ _ _ _ _ hp32, le32at_at8 _ _ _ _ _ _ _ hi32,
        le32at_at12 _ _ _ _ _ _ _ _ hph, le32at_at16 _ _ _ _ _ _ _ _ _ hih,
        le32at_at20 _ _ _ _ _ _ _ _ _ _ hr',
        effectiveOf_cons, hsp, hsi,
        (by decide : (u32_from_le_bytes 0 0 0 3 &&& VFS_CAP_FLAGS_MASK &&&
          VFS_CAP_FLAGS_EFFECTIVE != 0) = false)]
    · rw [pack_eq_v3t, unpack_v3 _ (by rw [versionOf_cons]; decide)
          (by norm_num [u32_to_le_bytes]),
        le32at_at4 _ _ _ _ _ _ hp32, le32at_at8 _ _ _ _ _ _ _ hi32,
        le32at_at12 _ _ _ _ _ _ _ _ hph, le32at_at16 _ _ _ _ _ _ _ _ _ hih,
        le32at_at20 _ _ _ _ _ _ _ _ _ _ hr',
        effectiveOf_cons, hsp, hsi,
        (by decide : (u32_from_le_bytes 1 0 0 3 &&& VFS_CAP_FLAGS_MASK &&&
          VFS_CAP_FLAGS_EFFECTIVE != 0) = true)]

/-- C3: for every well-formed `FileCaps` value, decoding the encoded
attribute succeeds and returns the original value, for both the
`rootid = None` (version 2) and `rootid = Some` (version 3) shapes. -/
theorem decode_encode_roundtrip (fc : FileCaps) (h : fc.wf) :
    FileCaps.unpack_attrs fc.pack_attrs = Except.ok fc :=
  unpack_pack_eq fc h

/-- Witness for C3 at concrete values, one per encoder shape. -/
theorem decode_encode_roundtrip_witness :
    FileCaps.unpack_attrs (FileCaps.pack_attrs ⟨true, ⟨0x3002⟩, ⟨5⟩, none⟩) =
      Except.ok ⟨true, ⟨0x3002⟩, ⟨5⟩, none⟩ ∧
    FileCaps.unpack_attrs
        (FileCaps.pack_attrs ⟨false, ⟨0x400003002⟩, ⟨7⟩, some 1000⟩) =
      Except.ok ⟨false, ⟨0x400003002⟩, ⟨7⟩, some 1000⟩ :=
  ⟨decode_encode_roundtrip ⟨true, ⟨0x3002⟩, ⟨5⟩, none⟩ (by decide),
   decode_encode_roundtrip ⟨false, ⟨0x400003002⟩, ⟨7⟩, some 1000⟩ (by decide)⟩

lemma version_shift (attrs : List Nat) (hb : bytesWf attrs) (n : Nat) :
    versionOf attrs = n <<< 24 ↔ magicOf attrs >>> 24 = n := by
  have hm : magicOf attrs < 2 ^ 32 := le32at_lt attrs hb 0
  unfold versionOf
  rw [version_eq_iff _ n hm, Nat.shiftRight_eq_div_pow]

lemma accept_iff (attrs : List Nat) :
    (∃ fc, FileCaps.unpack_attrs attrs = Except.ok fc) ↔
      (4 ≤ attrs.length ∧
        ((versionOf attrs = VFS_CAP_REVISION_2 ∧ attrs.length = 20) ∨
         (versionOf attrs = VFS_CAP_REVISION_3 ∧ attrs.length = 24) ∨
         (versionOf attrs = VFS_CAP_REVISION_1 ∧ attrs.length = 12))) := by
  constructor
  · rintro ⟨fc, hfc⟩
    rcases Nat.lt_or_ge attrs.length 4 with h4 | h4
    · rw [unpack_err _ (Or.inl h4)] at hfc
      exact absurd hfc (by simp)
    · refine ⟨h4, ?_⟩
      by_cases hA : versionOf attrs = VFS_CAP_REVISION_2 ∧ attrs.length = 20
      · exact Or.inl hA
      by_cases hB : versionOf attrs = VFS_CAP_REVISION_3 ∧ attrs.length = 24
      · exact Or.inr (Or.inl hB)
      by_cases hC : versionOf attrs = VFS_CAP_REVISION_1 ∧ attrs.length = 12
      · exact Or.inr (Or.inr hC)
      · rw [unpack_err _ (Or.inr ⟨hA, hB, hC⟩)] at hfc
        exact absurd hfc (by simp)
  · rintro ⟨h4, hA | hB | hC⟩
    · exact ⟨_, unpack_v2 attrs hA.1 hA.2⟩
    · exact ⟨_, unpack_v3 attrs hB.1 hB.2⟩
    · exact ⟨_, unpack_v1 attrs hC.1 hC.2⟩

/-- C4: `unpack_attrs` fails exactly on malformed input: every buffer
shorter than 4 bytes fails; a buffer is accepted exactly when the version
discriminant and the total length are (1, 12), (2, 20) or (3, 24); and
every rejected buffer gets the uniform `EINVAL` error. -/
theorem unpack_error_characterization (attrs : List Nat)
    (hb : bytesWf attrs) :
    (attrs.length < 4 → FileCaps.unpack_attrs attrs = Except.error EINVAL) ∧
    ((∃ fc, FileCaps.unpack_attrs attrs = Except.ok fc) ↔
      (4 ≤ attrs.length ∧
        ((magicOf attrs >>> 24 = 1 ∧ attrs.length = 12) ∨
         (magicOf attrs >>> 24 = 2 ∧ attrs.length = 20) ∨
         (magicOf attrs >>> 24 = 3 ∧ attrs.length = 24)))) ∧
    ((∃ fc, FileCaps.unpack_attrs attrs = Except.ok fc) ∨
      FileCaps.unpack_attrs attrs = Except.error EINVAL) := by
  have h1 := version_shift attrs hb 1
  have h2 := version_shift attrs hb 2
  have h3 := version_shift attrs hb 3
  have e1 : VFS_CAP_REVISION_1 = 1 <<< 24 := by decide
  have e2 : VFS_CAP_REVISION_2 = 2 <<< 24 := by decide
  have e3 : VFS_CAP_REVISION_3 = 3 <<< 24 := by decide
  refine ⟨fun h4 => unpack_err _ (Or.inl h4), ?_, ?_⟩
  · rw [accept_iff attrs, e1, e2, e3, h1, h2, h3]
    constructor
    · rintro ⟨h4, hA | hB | hC⟩
      · exact ⟨h4, Or.inr (Or.inl hA)⟩
      · exact ⟨h4, Or.inr (Or.inr hB)⟩
      · exact ⟨h4, Or.inl hC⟩
    · rintro ⟨h4, hC | hA | hB⟩
      · exact ⟨h4, Or.inr (Or.inr hC)⟩
      · exact ⟨h4, Or.inl hA⟩
      · exact ⟨h4, Or.inr (Or.inl hB)⟩
  · rcases Nat.lt_or_ge attrs.length 4 with h4 | h4
    · exact Or.inr (unpack_err _ (Or.inl h4))
    · by_cases hA : versionOf attrs = VFS_CAP_REVISION_2 ∧ attrs.length = 20
      · exact Or.inl ⟨_, unpack_v2 attrs hA.1 hA.2⟩
      by_cases hB : versionOf attrs = VFS_CAP_REVISION_3 ∧ attrs.length = 24
      · exact Or.inl ⟨_, unpack_v3 attrs hB.1 hB.2⟩
      by_cases hC : versionOf attrs = VFS_CAP_REVISION_1 ∧ attrs.length = 12
      · exact Or.inl ⟨_, unpack_v1 attrs hC.1 hC.2⟩
      · exact Or.inr (unpack_err _ (Or.inr ⟨hA, hB, hC⟩))

/-- Witness for C4 at concrete inputs: a 3-byte buffer fails with EINVAL,
and a recognized version with a wrong length fails with EINVAL. -/
theorem unpack_error_characterization_witness :
    FileCaps.unpack_attrs [0, 0, 0] = Except.error EINVAL ∧
    FileCaps.unpack_attrs [0, 0, 0, 2, 9, 9] = Except.error EINVAL :=
  ⟨(unpack_error_characterization [0, 0, 0] (by decide)).1 (by decide),
   by
    rcases (unpack_error_characterization [0, 0, 0, 2, 9, 9]
        (by decide)).2.2 with hok | herr
    · exact absurd ((unpack_error_characterization [0, 0, 0, 2, 9, 9]
        (by decide)).2.1.mp hok) (by decide)
    · exact herr⟩

lemma magicOf_cons (m0 m1 m2 m3 : Nat) (rest : List Nat) :
    magicOf (m0 :: m1 :: m2 :: m3 :: rest) =
      u32_from_le_bytes m0 m1 m2 m3 := rfl

/-- C5: the encoder never produces the version-1 layout: it emits the
24-byte version-3 layout when `rootid` is present and the 20-byte
version-2 layout otherwise; a value decoded from a version-1 buffer does
not re-encode to the original bytes, but re-decoding the re-encoded bytes
preserves the effective flag and the membership of the 32 capabilities
version 1 can represent. -/
theorem encode_never_v1 :
    (∀ fc : FileCaps, fc.rootid = none →
      fc.pack_attrs.length = 20 ∧ magicOf fc.pack_attrs >>> 24 = 2) ∧
    (∀ (fc : FileCaps) (r : Nat), fc.rootid = some r →
      fc.pack_attrs.length = 24 ∧ magicOf fc.pack_attrs >>> 24 = 3) ∧
    (∀ (attrs : List Nat) (fc : FileCaps), bytesWf attrs →
      attrs.length = 12 → FileCaps.unpack_attrs attrs = Except.ok fc →
      fc.pack_attrs ≠ attrs ∧
      ∃ fc2, FileCaps.unpack_attrs fc.pack_attrs = Except.ok fc2 ∧
        fc2.effective = fc.effective ∧
        ∀ c : Cap, c.val < 32 →
          fc2.permitted.has c = fc.permitted.has c ∧
          fc2.inheritable.has c = fc.inheritable.has c) := by
  have hlen20 : ∀ fc : FileCaps, fc.rootid = none →
      fc.pack_attrs.length = 20 ∧ magicOf fc.pack_attrs >>> 24 = 2 := by
    rintro ⟨eff, ⟨pbits⟩, ⟨ibits⟩, rid⟩ hrid
    rcases hrid
    cases eff
    · rw [pack_eq_v2f]
      exact ⟨by norm_num [u32_to_le_bytes], by rw [magicOf_cons]; decide⟩
    · rw [pack_eq_v2t]
      exact ⟨by norm_num [u32_to_le_bytes], by rw [magicOf_cons]; decide⟩
  refine ⟨hlen20, ?_, ?_⟩
  · rintro ⟨eff, ⟨pbits⟩, ⟨ibits⟩, rid⟩ r hrid
    rcases hrid
    cases eff
    · rw [pack_eq_v3f]
      exact ⟨by norm_num [u32_to_le_bytes], by rw [magicOf_cons]; decide⟩
    · rw [pack_eq_v3t]
      exact ⟨by norm_num [u32_to_le_bytes], by rw [magicOf_cons]; decide⟩
  · intro attrs fc hb hlen hok
    have hv1 : versionOf attrs = VFS_CAP_REVISION_1 := by
      rcases (accept_iff attrs).mp ⟨fc, hok⟩ with ⟨h4, hA | hB | hC⟩
      · exact absurd hA.2 (by omega)
      · exact absurd hB.2 (by omega)
      · exact hC.1
    rw [unpack_v1 attrs hv1 hlen] at hok
    have hfc : fc =
        { effective := effectiveOf attrs
          permitted := CapSet.from_bitmask_truncate (le32at attrs 4)
          inheritable := CapSet.from_bitmask_truncate (le32at attrs 8)
          rootid := none } := by
      exact ((Except.ok.injEq _ _).mp hok).symm
    subst hfc
    have hwf : FileCaps.wf
        { effective := effectiveOf attrs
          permitted := CapSet.from_bitmask_truncate (le32at attrs 4)
          inheritable := CapSet.from_bitmask_truncate (le32at attrs 8)
          rootid := none } :=
      ⟨from_bitmask_truncate_valid _, from_bitmask_truncate_valid _, trivial⟩
    refine ⟨?_, _, unpack_pack_eq _ hwf, rfl, fun c _ => ⟨rfl, rfl⟩⟩
    intro heq
    have hl := congrArg List.length heq
    rw [hlen, (hlen20 _ rfl).1] at hl
    exact absurd hl (by norm_num)

/-- Witness for C5 at the version-1 test vector of the repository. -/
theorem encode_never_v1_witness :
    (FileCaps.pack_attrs ⟨false, ⟨1⟩, ⟨1⟩, none⟩).length = 20 ∧
    (FileCaps.pack_attrs ⟨false, ⟨7⟩, ⟨7⟩, some 3⟩).length = 24 ∧
    FileCaps.pack_attrs ⟨false, ⟨1⟩, ⟨1⟩, none⟩ ≠
      [0, 0, 0, 1, 1, 0, 0, 0, 1, 0, 0, 0] :=
  ⟨(encode_never_v1.1 ⟨false, ⟨1⟩, ⟨1⟩, none⟩ rfl).1,
   (encode_never_v1.2.1 ⟨false, ⟨7⟩, ⟨7⟩, some 3⟩ 3 rfl).1,
   by
    have hd : FileCaps.unpack_attrs [0, 0, 0, 1, 1, 0, 0, 0, 1, 0, 0, 0] =
        Except.ok ⟨false, ⟨1⟩, ⟨1⟩, none⟩ := by decide
    have h12 := encode_never_v1.2.2 [0, 0, 0, 1, 1, 0, 0, 0, 1, 0, 0, 0]
      ⟨false, ⟨1⟩, ⟨1⟩, none⟩ (by decide) (by decide) hd
    exact h12.1⟩

lemma getD_drop (l : List Nat) (k j : Nat) :
    (l.drop k).getD j 0 = l.getD (k + j) 0 := by
  induction l generalizing k with
  | nil => simp [List.getD_nil]
  | cons a t ih =>
    cases k with
    | zero => simp
    | succ k2 =>
      simp only [List.drop_succ_cons]
      rw [ih k2, show k2 + 1 + j = (k2 + j) + 1 by omega, List.getD_cons_succ]

lemma getD_tail_eq (a1 a2 : List Nat) (h : a1.drop 4 = a2.drop 4) (j : Nat)
    (hj : 4 ≤ j) : a1.getD j 0 = a2.getD j 0 := by
  have e1 := getD_drop a1 4 (j - 4)
  have e2 := getD_drop a2 4 (j - 4)
  rw [show 4 + (j - 4) = j by omega] at e1 e2
  rw [← e1, ← e2, h]

lemma le32at_tail_eq (a1 a2 : List Nat) (h : a1.drop 4 = a2.drop 4) (k : Nat)
    (hk : 4 ≤ k) : le32at a1 k = le32at a2 k := by
  unfold le32at
  rw [getD_tail_eq a1 a2 h k hk, getD_tail_eq a1 a2 h (k + 1) (by omega),
    getD_tail_eq a1 a2 h (k + 2) (by omega),
    getD_tail_eq a1 a2 h (k + 3) (by omega)]

lemma version_of_masked (m : Nat) :
    m &&& VFS_CAP_REVISION_MASK =
      (m &&& 0xFF000001) &&& VFS_CAP_REVISION_MASK := by
  rw [Nat.and_assoc,
    (by decide : (0xFF000001 : Nat) &&& VFS_CAP_REVISION_MASK =
      VFS_CAP_REVISION_MASK)]

lemma effective_of_masked (m : Nat) :
    (m &&& VFS_CAP_FLAGS_MASK) &&& VFS_CAP_FLAGS_EFFECTIVE =
      (m &&& 0xFF000001) &&& 1 := by
  rw [Nat.and_assoc, Nat.and_assoc,
    (by decide : VFS_CAP_FLAGS_MASK &&& VFS_CAP_FLAGS_EFFECTIVE = 1),
    (by decide : (0xFF000001 : Nat) &&& 1 = 1)]

/-- C9: decoding does not depend on magic-word flag bits other than the
effective flag: two equal-length buffers that agree outside the magic word
and whose magic words agree on the version byte and the effective bit
decode to identical results. -/
theorem decode_flag_bit_independence (a1 a2 : List Nat)
    (hlen : a1.length = a2.length) (htail : a1.drop 4 = a2.drop 4)
    (hmask : magicOf a1 &&& 0xFF000001 = magicOf a2 &&& 0xFF000001) :
    FileCaps.unpack_attrs a1 = FileCaps.unpack_attrs a2 := by
  have hv : versionOf a1 = versionOf a2 := by
    unfold versionOf
    rw [version_of_masked, hmask, ← version_of_masked]
  have heff : effectiveOf a1 = effectiveOf a2 := by
    unfold effectiveOf flagsOf
    rw [effective_of_masked, hmask, ← effective_of_masked]
  have hle := le32at_tail_eq a1 a2 htail
  rcases Nat.lt_or_ge a1.length 4 with h4 | h4
  · rw [unpack_err a1 (Or.inl h4), unpack_err a2 (Or.inl (hlen ▸ h4))]
  · by_cases hA : versionOf a1 = VFS_CAP_REVISION_2 ∧ a1.length = 20
    · rw [unpack_v2 a1 hA.1 hA.2, unpack_v2 a2 (hv ▸ hA.1) (hlen ▸ hA.2),
        heff, hle 4 (by omega), hle 8 (by omega), hle 12 (by omega),
        hle 16 (by omega)]
    by_cases hB : versionOf a1 = VFS_CAP_REVISION_3 ∧ a1.length = 24
    · rw [unpack_v3 a1 hB.1 hB.2, unpack_v3 a2 (hv ▸ hB.1) (hlen ▸ hB.2),
        heff, hle 4 (by omega), hle 8 (by omega), hle 12 (by omega),
        hle 16 (by omega), hle 20 (by omega)]
    by_cases hC : versionOf a1 = VFS_CAP_REVISION_1 ∧ a1.length = 12
    · rw [unpack_v1 a1 hC.1 hC.2, unpack_v1 a2 (hv ▸ hC.1) (hlen ▸ hC.2),
        heff, hle 4 (by omega), hle 8 (by omega)]
    · rw [unpack_err a1 (Or.inr ⟨hA, hB, hC⟩),
        unpack_err a2 (Or.inr ⟨by rw [← hv, ← hlen]; exact hA,
          by rw [← hv, ← hlen]; exact hB, by rw [← hv, ← hlen]; exact hC⟩)]

/-- Witness for C9: two version-2 buffers that differ only in a non-
effective flag bit of the magic word decode identically. -/
theorem decode_flag_bit_independence_witness :
    FileCaps.unpack_attrs
        [2, 1, 0, 2, 3, 0, 0, 0, 0, 0, 0, 0, 0, 0, 0, 0, 0, 0, 0, 0] =
      FileCaps.unpack_attrs
        [0, 0, 0, 2, 3, 0, 0, 0, 0, 0, 0, 0, 0, 0, 0, 0, 0, 0, 0, 0] :=
  decode_flag_bit_independence _ _ (by decide) (by decide) (by decide)

lemma toBytes20 (l : List Nat) (h : l.length = 20) :
    l = [l.getD 0 0, l.getD 1 0, l.getD 2 0, l.getD 3 0, l.getD 4 0,
      l.getD 5 0, l.getD 6 0, l.getD 7 0, l.getD 8 0, l.getD 9 0,
      l.getD 10 0, l.getD 11 0, l.getD 12 0, l.getD 13 0, l.getD 14 0,
      l.getD 15 0, l.getD 16 0, l.getD 17 0, l.getD 18 0, l.getD 19 0] := by
  apply List.ext_getElem (by simp [h])
  intro i h1 h2
  have hi : i < 20 := by omega
  interval_cases i <;>
    simp [List.getD_eq_getElem?_getD, List.getElem?_eq_getElem, h1]

lemma from_bitmasks_small (lo hi : Nat) (hlo : lo < 2 ^ 32)
    (hhi : hi < 2 ^ (NUM_CAPS - 32)) :
    CapSet.from_bitmasks_u32 lo hi = ⟨hi * 2 ^ 32 + lo⟩ := by
  have hbound : hi * 2 ^ 32 + lo < 2 ^ NUM_CAPS := by
    rw [num_caps_eq]
    rw [num_caps_eq] at hhi
    norm_num at hhi ⊢
    omega
  unfold CapSet.from_bitmasks_u32 CapSet.from_bitmask_truncate
  rw [lor_high_low hi lo hlo, cap_bitmask_eq, Nat.and_pow_two_sub_one_eq_mod,
    Nat.mod_eq_of_lt hbound]

lemma hi_lo_split (lo hi : Nat) (hlo : lo < 2 ^ 32) (hhi : hi < 2 ^ 32) :
    (hi * 2 ^ 32 + lo) % 2 ^ 32 = lo ∧
      (hi * 2 ^ 32 + lo) >>> 32 % 2 ^ 32 = hi := by
  rw [Nat.shiftRight_eq_div_pow]
  norm_num at hlo hhi ⊢
  omega

lemma effectiveOf_eq (attrs : List Nat) :
    effectiveOf attrs = (magicOf attrs % 2 != 0) := by
  unfold effectiveOf flagsOf
  rw [Nat.and_assoc,
    (by decide : VFS_CAP_FLAGS_MASK &&& VFS_CAP_FLAGS_EFFECTIVE = 1),
    Nat.and_one_is_mod]

lemma roundtrip_amended_v2 (attrs : List Nat) (fc : FileCaps)
    (hb : bytesWf attrs)
    (hok : FileCaps.unpack_attrs attrs = Except.ok fc)
    (hv2 : versionOf attrs = VFS_CAP_REVISION_2) (hlen : attrs.length = 20)
    (hflags : magicOf attrs % 2 ^ 24 ≤ 1)
    (hhi1 : le32at attrs 12 < 2 ^ (NUM_CAPS - 32))
    (hhi2 : le32at attrs 16 < 2 ^ (NUM_CAPS - 32)) :
    FileCaps.pack_attrs fc = attrs := by
  rw [unpack_v2 attrs hv2 hlen] at hok
  obtain rfl := ((Except.ok.injEq _ _).mp hok).symm
  have hd := getD_lt_256 attrs hb
  have hmagic : magicOf attrs = u32_from_le_bytes (attrs.getD 0 0)
      (attrs.getD 1 0) (attrs.getD 2 0) (attrs.getD 3 0) := rfl
  have hver : magicOf attrs >>> 24 = 2 :=
    (version_shift attrs hb 2).mp (by rw [hv2]; decide)
  have hplo := le32at_lt attrs hb 4
  have hilo := le32at_lt attrs hb 8
  have hphi32 : le32at attrs 12 < 2 ^ 32 := le32at_lt attrs hb 12
  have hihi32 : le32at attrs 16 < 2 ^ 32 := le32at_lt attrs hb 16
  have hr4 : le32at attrs 4 = u32_from_le_bytes (attrs.getD 4 0)
      (attrs.getD 5 0) (attrs.getD 6 0) (attrs.getD 7 0) := rfl
  have hr8 : le32at attrs 8 = u32_from_le_bytes (attrs.getD 8 0)
      (attrs.getD 9 0) (attrs.getD 10 0) (attrs.getD 11 0) := rfl
  have hr12 : le32at attrs 12 = u32_from_le_bytes (attrs.getD 12 0)
      (attrs.getD 13 0) (attrs.getD 14 0) (attrs.getD 15 0) := rfl
  have hr16 : le32at attrs 16 = u32_from_le_bytes (attrs.getD 16 0)
      (attrs.getD 17 0) (attrs.getD 18 0) (attrs.getD 19 0) := rfl
  rw [effectiveOf_eq, from_bitmasks_small _ _ hplo hhi1,
    from_bitmasks_small _ _ hilo hhi2]
  rw [Nat.shiftRight_eq_div_pow] at hver
  rw [hmagic] at hver hflags
  unfold u32_from_le_bytes at hver hflags
  rcases Nat.mod_two_eq_zero_or_one (magicOf attrs) with he | he
  · rw [he, (by decide : ((0 : Nat) != 0) = false), pack_eq_v2f,
      (hi_lo_split _ _ hplo hphi32).1, (hi_lo_split _ _ hplo hphi32).2,
      (hi_lo_split _ _ hilo hihi32).1, (hi_lo_split _ _ hilo hihi32).2,
      hr4, u32_le_round _ _ _ _ (hd 4) (hd 5) (hd 6) (hd 7),
      hr8, u32_le_round _ _ _ _ (hd 8) (hd 9) (hd 10) (hd 11),
      hr12, u32_le_round _ _ _ _ (hd 12) (hd 13) (hd 14) (hd 15),
      hr16, u32_le_round _ _ _ _ (hd 16) (hd 17) (hd 18) (hd 19)]
    rw [hmagic] at he
    unfold u32_from_le_bytes at he
    have h0 := hd 0
    have h1 := hd 1
    have h2 := hd 2
    have h3 := hd 3
    conv_rhs => rw [toBytes20 attrs hlen]
    simp only [List.cons_append, List.nil_append, List.cons.injEq, and_true,
      true_and]
    rw [(by norm_num : (2 : Nat) ^ 8 = 256),
      (by norm_num : (2 : Nat) ^ 16 = 65536),
      (by norm_num : (2 : Nat) ^ 24 = 16777216)] at hver
    rw [(by norm_num : (2 : Nat) ^ 8 = 256),
      (by norm_num : (2 : Nat) ^ 16 = 65536),
      (by norm_num : (2 : Nat) ^ 24 = 16777216)] at hflags
    rw [(by norm_num : (2 : Nat) ^ 8 = 256),
      (by norm_num : (2 : Nat) ^ 16 = 65536),
      (by norm_num : (2 : Nat) ^ 24 = 16777216)] at he
    omega
  · rw [he, (by decide : ((1 : Nat) != 0) = true), pack_eq_v2t,
      (hi_lo_split _ _ hplo hphi32).1, (hi_lo_split _ _ hplo hphi32).2,
      (hi_lo_split _ _ hilo hihi32).1, (hi_lo_split _ _ hilo hihi32).2,
      hr4, u32_le_round _ _ _ _ (hd 4) (hd 5) (hd 6) (hd 7),
      hr8, u32_le_round _ _ _ _ (hd 8) (hd 9) (hd 10) (hd 11),
      hr12, u32_le_round _ _ _ _ (hd 12) (hd 13) (hd 14) (hd 15),
      hr16, u32_le_round _ _ _ _ (hd 16) (hd 17) (hd 18) (hd 19)]
    rw [hmagic] at he
    unfold u32_from_le_bytes at he
    have h0 := hd 0
    have h1 := hd 1
    have h2 := hd 2
    have h3 := hd 3
    conv_rhs => rw [toBytes20 attrs hlen]
    simp only [List.cons_append, List.nil_append, List.cons.injEq, and_true,
      true_and]
    rw [(by norm_num : (2 : Nat) ^ 8 = 256),
      (by norm_num : (2 : Nat) ^ 16 = 65536),
      (by norm_num : (2 : Nat) ^ 24 = 16777216)] at hver
    rw [(by norm_num : (2 : Nat) ^ 8 = 256),
      (by norm_num : (2 : Nat) ^ 16 = 65536),
      (by norm_num : (2 : Nat) ^ 24 = 16777216)] at hflags
    rw [(by norm_num : (2 : Nat) ^ 8 = 256),
      (by norm_num : (2 : Nat) ^ 16 = 65536),
      (by norm_num : (2 : Nat) ^ 24 = 16777216)] at he
    omega

lemma toBytes24 (l : List Nat) (h : l.length = 24) :
    l = [l.getD 0 0, l.getD 1 0, l.getD 2 0, l.getD 3 0, l.getD 4 0,
      l.getD 5 0, l.getD 6 0, l.getD 7 0, l.getD 8 0, l.getD 9 0,
      l.getD 10 0, l.getD 11 0, l.getD 12 0, l.getD 13 0, l.getD 14 0,
      l.getD 15 0, l.getD 16 0, l.getD 17 0, l.getD 18 0, l.getD 19 0,
      l.getD 20 0, l.getD 21 0, l.getD 22 0, l.getD 23 0] := by
  apply List.ext_getElem (by simp [h])
  intro i h1 h2
  have hi : i < 24 := by omega
  interval_cases i <;>
    simp [List.getD_eq_getElem?_getD, List.getElem?_eq_getElem, h1]

lemma roundtrip_amended_v3 (attrs : List Nat) (fc : FileCaps)
    (hb : bytesWf attrs)
    (hok : FileCaps.unpack_attrs attrs = Except.ok fc)
    (hv3 : versionOf attrs = VFS_CAP_REVISION_3) (hlen : attrs.length = 24)
    (hflags : magicOf attrs % 2 ^ 24 ≤ 1)
    (hhi1 : le32at attrs 12 < 2 ^ (NUM_CAPS - 32))
    (hhi2 : le32at attrs 16 < 2 ^ (NUM_CAPS - 32)) :
    FileCaps.pack_attrs fc = attrs := by
  rw [unpack_v3 attrs hv3 hlen] at hok
  obtain rfl := ((Except.ok.injEq _ _).mp hok).symm
  have hd := getD_lt_256 attrs hb
  have hmagic : magicOf attrs = u32_from_le_bytes (attrs.getD 0 0)
      (attrs.getD 1 0) (attrs.getD 2 0) (attrs.getD 3 0) := rfl
  have hver : magicOf attrs >>> 24 = 3 :=
    (version_shift attrs hb 3).mp (by rw [hv3]; decide)
  have hplo := le32at_lt attrs hb 4
  have hilo := le32at_lt attrs hb 8
  have hphi32 : le32at attrs 12 < 2 ^ 32 := le32at_lt attrs hb 12
  have hihi32 : le32at attrs 16 < 2 ^ 32 := le32at_lt attrs hb 16
  have hr4 : le32at attrs 4 = u32_from_le_bytes (attrs.getD 4 0)
      (attrs.getD 5 0) (attrs.getD 6 0) (attrs.getD 7 0) := rfl
  have hr8 : le32at attrs 8 = u32_from_le_bytes (attrs.getD 8 0)
      (attrs.getD 9 0) (attrs.getD 10 0) (attrs.getD 11 0) := rfl
  have hr12 : le32at attrs 12 = u32_from_le_bytes (attrs.getD 12 0)
      (attrs.getD 13 0) (attrs.getD 14 0) (attrs.getD 15 0) := rfl
  have hr16 : le32at attrs 16 = u32_from_le_bytes (attrs.getD 16 0)
      (attrs.getD 17 0) (attrs.getD 18 0) (attrs.getD 19 0) := rfl
  have hr20 : le32at attrs 20 = u32_from_le_bytes (attrs.getD 20 0)
      (attrs.getD 21 0) (attrs.getD 22 0) (attrs.getD 23 0) := rfl
  rw [effectiveOf_eq, from_bitmasks_small _ _ hplo hhi1,
    from_bitmasks_small _ _ hilo hhi2]
  rw [Nat.shiftRight_eq_div_pow] at hver
  rw [hmagic] at hver hflags
  unfold u32_from_le_bytes at hver hflags
  rcases Nat.mod_two_eq_zero_or_one (magicOf attrs) with he | he
  · rw [he, (by decide : ((0 : Nat) != 0) = false), pack_eq_v3f,
      (hi_lo_split _ _ hplo hphi32).1, (hi_lo_split _ _ hplo hphi32).2,
      (hi_lo_split _ _ hilo hihi32).1, (hi_lo_split _ _ hilo hihi32).2,
      hr4, u32_le_round _ _ _ _ (hd 4) (hd 5) (hd 6) (hd 7),
      hr8, u32_le_round _ _ _ _ (hd 8) (hd 9) (hd 10) (hd 11),
      hr12, u32_le_round _ _ _ _ (hd 12) (hd 13) (hd 14) (hd 15),
      hr16, u32_le_round _ _ _ _ (hd 16) (hd 17) (hd 18) (hd 19),
      hr20, u32_le_round _ _ _ _ (hd 20) (hd 21) (hd 22) (hd 23)]
    rw [hmagic] at he
    unfold u32_from_le_bytes at he
    have h0 := hd 0
    have h1 := hd 1
    have h2 := hd 2
    have h3 := hd 3
    conv_rhs => rw [toBytes24 attrs hlen]
    simp only [List.cons_append, List.nil_append, List.cons.injEq, and_true,
      true_and]
    rw [(by norm_num : (2 : Nat) ^ 8 = 256),
      (by norm_num : (2 : Nat) ^ 16 = 65536),
      (by norm_num : (2 : Nat) ^ 24 = 16777216)] at hver
    rw [(by norm_num : (2 : Nat) ^ 8 = 256),
      (by norm_num : (2 : Nat) ^ 16 = 65536),
      (by norm_num : (2 : Nat) ^ 24 = 16777216)] at hflags
    rw [(by norm_num : (2 : Nat) ^ 8 = 256),
      (by norm_num : (2 : Nat) ^ 16 = 65536),
      (by norm_num : (2 : Nat) ^ 24 = 16777216)] at he
    omega
  · rw [he, (by decide : ((1 : Nat) != 0) = true), pack_eq_v3t,
      (hi_lo_split _ _ hplo hphi32).1, (hi_lo_split _ _ hplo hphi32).2,
      (hi_lo_split _ _ hilo hihi32).1, (hi_lo_split _ _ hilo hihi32).2,
      hr4, u32_le_round _ _ _ _ (hd 4) (hd 5) (hd 6) (hd 7),
      hr8, u32_le_round _ _ _ _ (hd 8) (hd 9) (hd 10) (hd 11),
      hr12, u32_le_round _ _ _ _ (hd 12) (hd 13) (hd 14) (hd 15),
      hr16, u32_le_round _ _ _ _ (hd 16) (hd 17) (hd 18) (hd 19),
      hr20, u32_le_round _ _ _ _ (hd 20) (hd 21) (hd 22) (hd 23)]
    rw [hmagic] at he
    unfold u32_from_le_bytes at he
    have h0 := hd 0
    have h1 := hd 1
    have h2 := hd 2
    have h3 := hd 3
    conv_rhs => rw [toBytes24 attrs hlen]
    simp only [List.cons_append, List.nil_append, List.cons.injEq, and_true,
      true_and]
    rw [(by norm_num : (2 : Nat) ^ 8 = 256),
      (by norm_num : (2 : Nat) ^ 16 = 65536),
      (by norm_num : (2 : Nat) ^ 24 = 16777216)] at hver
    rw [(by norm_num : (2 : Nat) ^ 8 = 256),
      (by norm_num : (2 : Nat) ^ 16 = 65536),
      (by norm_num : (2 : Nat) ^ 24 = 16777216)] at hflags
    rw [(by norm_num : (2 : Nat) ^ 8 = 256),
      (by norm_num : (2 : Nat) ^ 16 = 65536),
      (by norm_num : (2 : Nat) ^ 24 = 16777216)] at he
    omega

/-- Counterexample to C1 as stated: the 20-byte buffer with magic word
`0x02000002` (version 2 plus an undefined flag bit) is accepted by
`unpack_attrs`, but re-encoding the decoded value clears the undefined
flag bit, so the output is not byte-identical to the input. -/
theorem roundtrip_bytes_counterexample :
    FileCaps.unpack_attrs
        [2, 0, 0, 2, 0, 0, 0, 0, 0, 0, 0, 0, 0, 0, 0, 0, 0, 0, 0, 0] =
      Except.ok ⟨false, ⟨0⟩, ⟨0⟩, none⟩ ∧
    FileCaps.pack_attrs ⟨false, ⟨0⟩, ⟨0⟩, none⟩ ≠
      [2, 0, 0, 2, 0, 0, 0, 0, 0, 0, 0, 0, 0, 0, 0, 0, 0, 0, 0, 0] := by
  constructor
  · decide
  · decide

/-- C1 (amended): for every byte buffer that `unpack_attrs` accepts as a
version-2 or version-3 buffer, and whose magic-word flag bits other than
the effective bit are all clear, and whose high capability words carry no
bit at or above position `NUM_CAPS - 32`, re-encoding the decoded value
yields output byte-identical to the buffer. -/
theorem roundtrip_bytes_amended (attrs : List Nat) (fc : FileCaps)
    (hb : bytesWf attrs)
    (hok : FileCaps.unpack_attrs attrs = Except.ok fc)
    (hnotv1 : attrs.length ≠ 12)
    (hflags : magicOf attrs % 2 ^ 24 ≤ 1)
    (hhi1 : le32at attrs 12 < 2 ^ (NUM_CAPS - 32))
    (hhi2 : le32at attrs 16 < 2 ^ (NUM_CAPS - 32)) :
    FileCaps.pack_attrs fc = attrs := by
  rcases (accept_iff attrs).mp ⟨fc, hok⟩ with ⟨h4, hA | hB | hC⟩
  · exact roundtrip_amended_v2 attrs fc hb hok hA.1 hA.2 hflags hhi1 hhi2
  · exact roundtrip_amended_v3 attrs fc hb hok hB.1 hB.2 hflags hhi1 hhi2
  · exact absurd hC.2 hnotv1

/-- Witness for the amended C1 at the version-2 test vector of the
repository. -/
theorem roundtrip_bytes_amended_witness :
    FileCaps.unpack_attrs
        [1, 0, 0, 2, 2, 48, 0, 0, 2, 48, 0, 0, 0, 0, 0, 0, 0, 0, 0, 0] =
      Except.ok ⟨true, ⟨0x3002⟩, ⟨0x3002⟩, none⟩ ∧
    FileCaps.pack_attrs ⟨true, ⟨0x3002⟩, ⟨0x3002⟩, none⟩ =
      [1, 0, 0, 2, 2, 48, 0, 0, 2, 48, 0, 0, 0, 0, 0, 0, 0, 0, 0, 0] := by
  have hd : FileCaps.unpack_attrs
      [1, 0, 0, 2, 2, 48, 0, 0, 2, 48, 0, 0, 0, 0, 0, 0, 0, 0, 0, 0] =
      Except.ok ⟨true, ⟨0x3002⟩, ⟨0x3002⟩, none⟩ := by decide
  exact ⟨hd, roundtrip_bytes_amended _ _ (by decide) hd (by decide)
    (by decide) (by decide) (by decide)⟩

/-- Observable success of a decode result. -/
def exceptOk : Except Nat FileCaps → Bool
  | Except.ok _ => true
  | Except.error _ => false

/-- Observable effective flag of a decode result. -/
def exceptEffective : Except Nat FileCaps → Option Bool
  | Except.ok fc => some fc.effective
  | Except.error _ => none

/-- A 20-byte buffer holding a given magic word followed by zeroed
capability words. -/
def bufWithMagic (m : Nat) : List Nat :=
  u32_to_le_bytes m ++ [0, 0, 0, 0, 0, 0, 0, 0, 0, 0, 0, 0, 0, 0, 0, 0]

/-- Counterexample to C2 as stated: there is no split of the 32-bit magic
word into low version bits and high flag bits.  For any split below bit
25, magic words `0x02000000` and `0x01000000` agree on the low bits yet
dispatch differently; for any split at bit 25 or above, magic words
`0x02000000` and `0x02000001` agree on the high bits yet decode with
different effective flags. -/
theorem magic_layout_counterexample :
    ¬ ∃ k : Nat, 0 < k ∧ k < 32 ∧
      (∀ m1 m2 : Nat, m1 < 2 ^ 32 → m2 < 2 ^ 32 → m1 % 2 ^ k = m2 % 2 ^ k →
        exceptOk (FileCaps.unpack_attrs (bufWithMagic m1)) =
          exceptOk (FileCaps.unpack_attrs (bufWithMagic m2))) ∧
      (∀ m1 m2 : Nat, m1 < 2 ^ 32 → m2 < 2 ^ 32 → m1 / 2 ^ k = m2 / 2 ^ k →
        exceptEffective (FileCaps.unpack_attrs (bufWithMagic m1)) =
          exceptEffective (FileCaps.unpack_attrs (bufWithMagic m2))) := by
  rintro ⟨k, hk0, hk32, hver, heff⟩
  by_cases hk : k ≤ 24
  · obtain ⟨c1, hc1⟩ : 2 ^ k ∣ 0x02000000 :=
      dvd_trans (pow_dvd_pow 2 hk) ⟨2, by norm_num⟩
    obtain ⟨c2, hc2⟩ : 2 ^ k ∣ 0x01000000 :=
      dvd_trans (pow_dvd_pow 2 hk) ⟨1, by norm_num⟩
    have h := hver 0x02000000 0x01000000 (by norm_num) (by norm_num)
      (by rw [hc1, hc2, Nat.mul_mod_right, Nat.mul_mod_right])
    exact absurd h (by decide)
  · have hk25 : 25 ≤ k := by omega
    have hdiv : (0x02000000 : Nat) / 2 ^ k = (0x02000001 : Nat) / 2 ^ k := by
      rcases Nat.eq_or_lt_of_le hk25 with hkeq | hklt
      · rw [← hkeq]
        decide
      · have h26 : (2 : Nat) ^ 26 ≤ 2 ^ k :=
          Nat.pow_le_pow_right (by omega) (by omega)
        rw [Nat.div_eq_of_lt (lt_of_lt_of_le (by norm_num) h26),
          Nat.div_eq_of_lt (lt_of_lt_of_le (by norm_num) h26)]
    exact absurd (heff 0x02000000 0x02000001 (by norm_num) (by norm_num) hdiv)
      (by decide)

/-- C2 (amended): in the magic word, the version discriminant occupies the
HIGH byte (bits 24..31 of the little-endian u32 at bytes 0..4) and the
flags field the LOW 24 bits, with the effective flag at bit 0: for every
accepted buffer, the decoded effective flag is bit 0 of the magic word,
and the high byte of the magic word is the version matching the accepted
length (1 for 12 bytes, 2 for 20 bytes, 3 for 24 bytes). -/
theorem magic_field_layout (attrs : List Nat) (fc : FileCaps)
    (hb : bytesWf attrs)
    (hok : FileCaps.unpack_attrs attrs = Except.ok fc) :
    fc.effective = (magicOf attrs).testBit 0 ∧
    magicOf attrs >>> 24 =
      (if attrs.length = 12 then 1
       else if attrs.length = 20 then 2 else 3) := by
  have htb : ((magicOf attrs % 2 != 0) : Bool) = (magicOf attrs).testBit 0 := by
    rw [Nat.testBit_to_div_mod]
    rcases Nat.mod_two_eq_zero_or_one (magicOf attrs) with h | h <;>
      simp [pow_zero, Nat.div_one, h]
  rcases (accept_iff attrs).mp ⟨fc, hok⟩ with ⟨h4, hA | hB | hC⟩
  · rw [unpack_v2 attrs hA.1 hA.2] at hok
    obtain rfl := ((Except.ok.injEq _ _).mp hok).symm
    constructor
    · show effectiveOf attrs = _
      rw [effectiveOf_eq, htb]
    · rw [hA.2, (version_shift attrs hb 2).mp (by rw [hA.1]; decide)]
      norm_num
  · rw [unpack_v3 attrs hB.1 hB.2] at hok
    obtain rfl := ((Except.ok.injEq _ _).mp hok).symm
    constructor
    · show effectiveOf attrs = _
      rw [effectiveOf_eq, htb]
    · rw [hB.2, (version_shift attrs hb 3).mp (by rw [hB.1]; decide)]
      norm_num
  · rw [unpack_v1 attrs hC.1 hC.2] at hok
    obtain rfl := ((Except.ok.injEq _ _).mp hok).symm
    constructor
    · show effectiveOf attrs = _
      rw [effectiveOf_eq, htb]
    · rw [hC.2, (version_shift attrs hb 1).mp (by rw [hC.1]; decide)]
      norm_num

/-- Witness for the amended C2 at the version-2 test vector of the
repository. -/
theorem magic_field_layout_witness :
    FileCaps.unpack_attrs
        [1, 0, 0, 2, 2, 48, 0, 0, 2, 48, 0, 0, 0, 0, 0, 0, 0, 0, 0, 0] =
      Except.ok ⟨true, ⟨0x3002⟩, ⟨0x3002⟩, none⟩ ∧
    (true = (magicOf
        [1, 0, 0, 2, 2, 48, 0, 0, 2, 48, 0, 0, 0, 0, 0, 0, 0, 0, 0, 0]).testBit
          0 ∧
     magicOf [1, 0, 0, 2, 2, 48, 0, 0, 2, 48, 0, 0, 0, 0, 0, 0, 0, 0, 0, 0]
        >>> 24 =
      (if ([1, 0, 0, 2, 2, 48, 0, 0, 2, 48, 0, 0, 0, 0, 0, 0, 0, 0, 0,
          0] : List Nat).length = 12 then 1
       else if ([1, 0, 0, 2, 2, 48, 0, 0, 2, 48, 0, 0, 0, 0, 0, 0, 0, 0, 0,
          0] : List Nat).length = 20 then 2 else 3)) := by
  have hd : FileCaps.unpack_attrs
      [1, 0, 0, 2, 2, 48, 0, 0, 2, 48, 0, 0, 0, 0, 0, 0, 0, 0, 0, 0] =
      Except.ok ⟨true, ⟨0x3002⟩, ⟨0x3002⟩, none⟩ := by decide
  exact ⟨hd, magic_field_layout _ _ (by decide) hd⟩

/-! Lemmas about the population count and bit length helpers. -/

lemma countOnesAux_zero_val : ∀ fuel : Nat, countOnesAux fuel 0 = 0 := by
  intro fuel
  induction fuel with
  | zero => rfl
  | succ f ih =>
    show 0 % 2 + countOnesAux f (0 / 2) = 0
    simpa using ih

lemma countOnesAux_succ (fuel : Nat) :
    ∀ n : Nat, n < 2 ^ fuel →
      countOnesAux (fuel + 1) n = countOnesAux fuel n := by
  induction fuel with
  | zero =>
    intro n hn
    have : n = 0 := by omega
    subst this
    rfl
  | succ f ih =>
    intro n hn
    show n % 2 + countOnesAux (f + 1) (n / 2) = n % 2 + countOnesAux f (n / 2)
    rw [ih (n / 2) (by
      have : (2 : Nat) ^ (f + 1) = 2 ^ f * 2 := by rw [pow_succ]
      omega)]

lemma countOnesAux_eq_zero (fuel : Nat) :
    ∀ n : Nat, n < 2 ^ fuel → (countOnesAux fuel n = 0 ↔ n = 0) := by
  induction fuel with
  | zero =>
    intro n hn
    constructor
    · intro _; omega
    · intro h; subst h; rfl
  | succ f ih =>
    intro n hn
    show n % 2 + countOnesAux f (n / 2) = 0 ↔ n = 0
    have hdiv : n / 2 < 2 ^ f := by
      have : (2 : Nat) ^ (f + 1) = 2 ^ f * 2 := by rw [pow_succ]
      omega
    rw [Nat.add_eq_zero_iff]
    rw [ih (n / 2) hdiv]
    omega

lemma countOnes_eq_zero (n : Nat) (h : n < 2 ^ 64) :
    countOnes n = 0 ↔ n = 0 := countOnesAux_eq_zero 64 n h

lemma shiftRight_lt_63 (bits p : Nat) (h : bits < 2 ^ 64) :
    bits >>> (p + 1) < 2 ^ 63 := by
  rw [Nat.shiftRight_eq_div_pow]
  have h2 : (2 : Nat) ^ (p + 1) ≥ 2 := by
    have := Nat.pow_le_pow_right (show 1 ≤ 2 by omega) (show 1 ≤ p + 1 by omega)
    simpa using this
  have : bits / 2 ^ (p + 1) ≤ bits / 2 := Nat.div_le_div_left h2 (by omega)
  have h63 : bits / 2 < 2 ^ 63 := by norm_num at h ⊢; omega
  omega

lemma countOnes_odd_shift (bits : Nat) (h : bits < 2 ^ 64) (p : Nat)
    (hp : bits.testBit p = true) :
    countOnes (bits >>> p) = countOnes (bits >>> (p + 1)) + 1 := by
  have hmod : bits >>> p % 2 = 1 := by
    rw [Nat.testBit_to_div_mod] at hp
    rw [Nat.shiftRight_eq_div_pow]
    exact of_decide_eq_true hp
  have hdiv : bits >>> p / 2 = bits >>> (p + 1) := (Nat.shiftRight_succ _ _).symm
  show countOnesAux 64 (bits >>> p) = countOnesAux 64 (bits >>> (p + 1)) + 1
  have e : countOnesAux 64 (bits >>> p) =
      bits >>> p % 2 + countOnesAux 63 (bits >>> p / 2) := rfl
  rw [e, hmod, hdiv, countOnesAux_succ 63 _ (shiftRight_lt_63 bits p h)]
  omega

lemma countOnes_even_shift (bits : Nat) (h : bits < 2 ^ 64) (p : Nat)
    (hp : bits.testBit p = false) :
    countOnes (bits >>> p) = countOnes (bits >>> (p + 1)) := by
  have hmod : bits >>> p % 2 = 0 := by
    rw [Nat.testBit_to_div_mod] at hp
    rw [Nat.shiftRight_eq_div_pow]
    have := of_decide_eq_false hp
    omega
  have hdiv : bits >>> p / 2 = bits >>> (p + 1) := (Nat.shiftRight_succ _ _).symm
  show countOnesAux 64 (bits >>> p) = countOnesAux 64 (bits >>> (p + 1))
  have e : countOnesAux 64 (bits >>> p) =
      bits >>> p % 2 + countOnesAux 63 (bits >>> p / 2) := rfl
  rw [e, hmod, hdiv, countOnesAux_succ 63 _ (shiftRight_lt_63 bits p h)]
  omega

lemma countOnes_shift_congr (bits : Nat) (h64 : bits < 2 ^ 64) :
    ∀ d i : Nat, (∀ j, i ≤ j → j < i + d → bits.testBit j = false) →
      countOnes (bits >>> i) = countOnes (bits >>> (i + d)) := by
  intro d
  induction d with
  | zero => intro i _; rfl
  | succ d ih =>
    intro i hno
    rw [countOnes_even_shift bits h64 i (hno i (by omega) (by omega)),
      show i + (d + 1) = (i + 1) + d by omega]
    exact ih (i + 1) (fun j hj1 hj2 => hno j (by omega) (by omega))

lemma bitLenAux_zero_val : ∀ fuel : Nat, bitLenAux fuel 0 = 0 := by
  intro fuel
  cases fuel with
  | zero => rfl
  | succ f => rfl

lemma bitLenAux_gt (fuel : Nat) :
    ∀ n : Nat, n < 2 ^ fuel → n < 2 ^ bitLenAux fuel n := by
  induction fuel with
  | zero =>
    intro n hn
    have : n = 0 := by omega
    subst this
    simp [bitLenAux_zero_val]
  | succ f ih =>
    intro n hn
    by_cases h0 : n = 0
    · subst h0
      simp [bitLenAux_zero_val]
    · show n < 2 ^ (if n = 0 then 0 else bitLenAux f (n / 2) + 1)
      rw [if_neg h0]
      have hdiv : n / 2 < 2 ^ f := by
        have : (2 : Nat) ^ (f + 1) = 2 ^ f * 2 := by rw [pow_succ]
        omega
      have := ih (n / 2) hdiv
      have e : (2 : Nat) ^ (bitLenAux f (n / 2) + 1) =
          2 ^ bitLenAux f (n / 2) * 2 := by rw [pow_succ]
      omega

lemma bitLenAux_le (fuel : Nat) :
    ∀ n : Nat, n ≠ 0 → n < 2 ^ fuel →
      2 ^ (bitLenAux fuel n - 1) ≤ n ∧ 1 ≤ bitLenAux fuel n := by
  induction fuel with
  | zero =>
    intro n h0 hn
    omega
  | succ f ih =>
    intro n h0 hn
    show 2 ^ ((if n = 0 then 0 else bitLenAux f (n / 2) + 1) - 1) ≤ n ∧
      1 ≤ (if n = 0 then 0 else bitLenAux f (n / 2) + 1)
    rw [if_neg h0]
    refine ⟨?_, by omega⟩
    by_cases hd0 : n / 2 = 0
    · rw [hd0, bitLenAux_zero_val]
      simpa using by omega
    · have hdiv : n / 2 < 2 ^ f := by
        have : (2 : Nat) ^ (f + 1) = 2 ^ f * 2 := by rw [pow_succ]
        omega
      obtain ⟨hle, h1⟩ := ih (n / 2) hd0 hdiv
      have e : bitLenAux f (n / 2) + 1 - 1 = (bitLenAux f (n / 2) - 1) + 1 := by
        omega
      rw [e, pow_succ]
      omega

lemma bitLen_testBit_top (bits : Nat) (h0 : bits ≠ 0) (h64 : bits < 2 ^ 64) :
    bits.testBit (bitLen bits - 1) = true := by
  have hbl : bitLen bits = bitLenAux 64 bits := rfl
  obtain ⟨hle, h1⟩ := bitLenAux_le 64 bits h0 h64
  have hgt := bitLenAux_gt 64 bits h64
  rw [hbl]
  have hdiv : bits / 2 ^ (bitLenAux 64 bits - 1) = 1 := by
    have hup : bits < 2 ^ (bitLenAux 64 bits - 1) * 2 := by
      have e : (2 : Nat) ^ (bitLenAux 64 bits - 1) * 2 =
          2 ^ (bitLenAux 64 bits - 1 + 1) := (pow_succ 2 _).symm
      rw [e, show bitLenAux 64 bits - 1 + 1 = bitLenAux 64 bits by omega]
      exact hgt
    have hp : (0 : Nat) < 2 ^ (bitLenAux 64 bits - 1) := Nat.two_pow_pos _
    have hlow : 1 ≤ bits / 2 ^ (bitLenAux 64 bits - 1) :=
      (Nat.le_div_iff_mul_le hp).mpr (by omega)
    have hhigh : bits / 2 ^ (bitLenAux 64 bits - 1) < 2 :=
      (Nat.div_lt_iff_lt_mul hp).mpr (by omega)
    omega
  rw [Nat.testBit_to_div_mod, hdiv]
  decide

lemma bitLen_testBit_bound (bits j : Nat) (h64 : bits < 2 ^ 64)
    (hj : bits.testBit j = true) : j < bitLen bits := by
  have hbl : bitLen bits = bitLenAux 64 bits := rfl
  rw [hbl]
  by_contra hge
  have := testBit_false_of_lt (bitLenAux_gt 64 bits h64) j (by omega)
  rw [this] at hj
  exact absurd hj (by simp)

lemma bitLen_le_of_lt (bits k : Nat) (h0 : bits ≠ 0) (h64 : bits < 2 ^ 64)
    (hk : bits < 2 ^ k) : bitLen bits - 1 < k := by
  have hbl : bitLen bits = bitLenAux 64 bits := rfl
  rw [hbl]
  obtain ⟨hle, h1⟩ := bitLenAux_le 64 bits h0 h64
  by_contra hge
  have : (2 : Nat) ^ k ≤ 2 ^ (bitLenAux 64 bits - 1) :=
    Nat.pow_le_pow_right (by omega) (by omega)
  omega

lemma shiftRight_eq_zero_of_no_bits (bits i : Nat)
    (hval : bits < 2 ^ NUM_CAPS)
    (h : ∀ j, i ≤ j → j < NUM_CAPS → bits.testBit j = false) :
    bits >>> i = 0 := by
  apply Nat.eq_of_testBit_eq
  intro j
  rw [Nat.testBit_shiftRight, Nat.zero_testBit]
  by_cases hj : i + j < NUM_CAPS
  · exact h (i + j) (by omega) hj
  · exact testBit_false_of_lt hval (i + j) (by omega)

lemma testBit_false_of_shiftRight_zero (bits i j : Nat)
    (h : bits >>> i = 0) (hj : i ≤ j) : bits.testBit j = false := by
  have e : bits.testBit j = (bits >>> i).testBit (j - i) := by
    rw [Nat.testBit_shiftRight, show i + (j - i) = j by omega]
  rw [e, h, Nat.zero_testBit]

/-! Lemmas about the iterator scanning loop. -/

lemma from_u8_of_lt (i : Nat) (hi : i < NUM_CAPS) :
    Cap.from_u8 i = some ⟨i, hi⟩ := by
  unfold Cap.from_u8
  rw [dif_pos hi]

lemma from_u8_of_ge (i : Nat) (hi : NUM_CAPS ≤ i) : Cap.from_u8 i = none := by
  unfold Cap.from_u8
  rw [dif_neg (by omega)]

lemma from_u8_some (i : Nat) (cap : Cap) (h : Cap.from_u8 i = some cap) :
    cap.val = i := by
  unfold Cap.from_u8 at h
  by_cases hi : i < NUM_CAPS
  · rw [dif_pos hi] at h
    cases h
    rfl
  · rw [dif_neg hi] at h
    cases h

lemma from_u8_none (i : Nat) (h : Cap.from_u8 i = none) : NUM_CAPS ≤ i := by
  by_contra hi
  rw [from_u8_of_lt i (by omega)] at h
  cases h

lemma andBit_eq_testBit (bits : Nat) (cap : Cap) :
    (bits &&& cap.to_single_bitfield != 0) = bits.testBit cap.val :=
  has_eq_testBit ⟨bits⟩ cap

lemma nextAux_some_inv (fuel : Nat) :
    ∀ (bits i : Nat) (c : Cap) (i2 : Nat),
      nextAux fuel bits i = (some c, i2) →
      i ≤ c.val ∧ i2 = c.val + 1 ∧ bits.testBit c.val = true ∧
        ∀ j, i ≤ j → j < c.val → bits.testBit j = false := by
  induction fuel with
  | zero =>
    intro bits i c i2 h
    exact absurd h (by simp [nextAux])
  | succ f ih =>
    intro bits i c i2 h
    cases hfu : Cap.from_u8 i with
    | none =>
      simp only [nextAux, hfu] at h
      exact absurd h (by simp)
    | some cap =>
      have hval := from_u8_some i cap hfu
      simp only [nextAux, hfu, andBit_eq_testBit] at h
      cases htb : bits.testBit cap.val with
      | true =>
        rw [htb, if_pos rfl] at h
        obtain ⟨hc, hi2⟩ := Prod.mk.injEq _ _ _ _ ▸ h
        obtain rfl := Option.some.inj hc
        refine ⟨by omega, by omega, htb, ?_⟩
        intro j hj1 hj2
        omega
      | false =>
        rw [htb, if_neg (by simp)] at h
        obtain ⟨g1, g2, g3, g4⟩ := ih bits (i + 1) c i2 h
        refine ⟨by omega, g2, g3, ?_⟩
        intro j hj1 hj2
        rcases Nat.eq_or_lt_of_le hj1 with heq | hlt
        · rw [show j = (cap.val : Nat) by omega]
          exact htb
        · exact g4 j (by omega) hj2

lemma nextAux_none_inv (fuel : Nat) :
    ∀ (bits i i2 : Nat), nextAux fuel bits i = (none, i2) →
      i ≤ i2 ∧ i2 ≤ max i NUM_CAPS ∧
        (∀ j, i ≤ j → j < i2 → bits.testBit j = false) ∧
        (NUM_CAPS ≤ i2 ∨ i2 = i + fuel) := by
  induction fuel with
  | zero =>
    intro bits i i2 h
    simp only [nextAux, Prod.mk.injEq] at h
    obtain ⟨-, rfl⟩ := h
    exact ⟨le_refl i, le_max_left _ _, fun j hj1 hj2 => by omega,
      Or.inr (by omega)⟩
  | succ f ih =>
    intro bits i i2 h
    cases hfu : Cap.from_u8 i with
    | none =>
      have hge := from_u8_none i hfu
      simp only [nextAux, hfu, Prod.mk.injEq] at h
      obtain ⟨-, rfl⟩ := h
      exact ⟨le_refl i, le_max_left _ _, fun j hj1 hj2 => by omega,
        Or.inl hge⟩
    | some cap =>
      have hval := from_u8_some i cap hfu
      have hlt : i < NUM_CAPS := by
        have := cap.isLt
        omega
      simp only [nextAux, hfu, andBit_eq_testBit] at h
      cases htb : bits.testBit cap.val with
      | true =>
        rw [htb, if_pos rfl] at h
        exact absurd h (by simp)
      | false =>
        rw [htb, if_neg (by simp)] at h
        obtain ⟨g1, g2, g3, g4⟩ := ih bits (i + 1) i2 h
        refine ⟨by omega, ?_, ?_, ?_⟩
        · have : max (i + 1) NUM_CAPS = NUM_CAPS := by omega
          rw [this] at g2
          omega
        · intro j hj1 hj2
          rcases Nat.eq_or_lt_of_le hj1 with heq | hlt2
          · rw [show j = (cap.val : Nat) by omega]
            exact htb
          · exact g3 j (by omega) hj2
        · omega

lemma nextAux_at_end (fuel bits i : Nat) (h : NUM_CAPS ≤ i) :
    nextAux fuel bits i = (none, i) := by
  cases fuel with
  | zero => rfl
  | succ f => simp only [nextAux, from_u8_of_ge i h]

lemma nextAux_of_no_bits (fuel : Nat) :
    ∀ (bits i : Nat), NUM_CAPS ≤ i + fuel →
      (∀ j, i ≤ j → j < NUM_CAPS → bits.testBit j = false) →
      nextAux fuel bits i = (none, max i NUM_CAPS) := by
  induction fuel with
  | zero =>
    intro bits i hfuel hno
    have : max i NUM_CAPS = i := by omega
    rw [this]
    rfl
  | succ f ih =>
    intro bits i hfuel hno
    by_cases hi : i < NUM_CAPS
    · rw [show nextAux (f + 1) bits i = (if bits &&&
          (Cap.to_single_bitfield ⟨i, hi⟩) != 0 then (some ⟨i, hi⟩, i + 1)
          else nextAux f bits (i + 1)) by
        simp only [nextAux, from_u8_of_lt i hi]]
      rw [andBit_eq_testBit bits ⟨i, hi⟩, hno i (le_refl i) hi,
        if_neg (by simp)]
      rw [ih bits (i + 1) (by omega) (fun j hj1 hj2 => hno j (by omega) hj2)]
      have : max (i + 1) NUM_CAPS = max i NUM_CAPS := by omega
      rw [this]
    · have : max i NUM_CAPS = i := by omega
      rw [this, nextAux_at_end (f + 1) bits i (by omega)]

lemma next_some (it : CapSetIterator) (c : Cap) (it2 : CapSetIterator)
    (h : it.next = (some c, it2)) :
    it2.set = it.set ∧ it2.i = c.val + 1 ∧ it.i ≤ c.val ∧
      it.set.bits.testBit c.val = true ∧
      ∀ j, it.i ≤ j → j < c.val → it.set.bits.testBit j = false := by
  unfold CapSetIterator.next at h
  obtain ⟨h1, h2⟩ := Prod.mk.injEq _ _ _ _ ▸ h
  have hr : nextAux NUM_CAPS it.set.bits it.i =
      (some c, (nextAux NUM_CAPS it.set.bits it.i).2) := by
    rw [← h1]
  obtain ⟨g1, g2, g3, g4⟩ := nextAux_some_inv NUM_CAPS _ _ _ _ hr
  subst h2
  exact ⟨rfl, g2, g1, g3, g4⟩

lemma next_none (it : CapSetIterator) (it2 : CapSetIterator)
    (h : it.next = (none, it2)) :
    it2.set = it.set ∧ it.i ≤ it2.i ∧ it2.i ≤ max it.i NUM_CAPS ∧
      (∀ j, it.i ≤ j → j < it2.i → it.set.bits.testBit j = false) ∧
      (NUM_CAPS ≤ it2.i ∨ it2.i = it.i + NUM_CAPS) := by
  unfold CapSetIterator.next at h
  obtain ⟨h1, h2⟩ := Prod.mk.injEq _ _ _ _ ▸ h
  have hr : nextAux NUM_CAPS it.set.bits it.i =
      (none, (nextAux NUM_CAPS it.set.bits it.i).2) := by
    rw [← h1]
  obtain ⟨g1, g2, g3, g4⟩ := nextAux_none_inv NUM_CAPS _ _ _ hr
  subst h2
  exact ⟨rfl, g1, g2, g3, g4⟩

lemma bitLen_zero_val : bitLen 0 = 0 := rfl

/-- C8: on every invariant-satisfying set, a fresh iterator's `last` is
the member with the highest bit position (`none` on the empty set); the
reported remaining length of a fresh iterator equals `size`, decreases by
exactly one per yielded element, and is zero exactly when `next` returns
`None`; and consecutive yielded elements have strictly increasing bit
positions. -/
theorem capset_iterator_behaviour :
    (∀ s : CapSet, s.valid →
      (s.bits = 0 → s.iter.last = none) ∧
      (s.bits ≠ 0 → ∃ c : Cap, s.iter.last = some c ∧ s.has c = true ∧
        ∀ d : Cap, s.has d = true → d.val ≤ c.val)) ∧
    (∀ s : CapSet, s.iter.len = s.size) ∧
    (∀ (it it2 : CapSetIterator) (c : Cap),
      it.set.valid → it.next = (some c, it2) → it.len = it2.len + 1) ∧
    (∀ it : CapSetIterator, it.set.valid →
      (it.next.1 = none ↔ it.len = 0)) ∧
    (∀ (it it2 it3 : CapSetIterator) (c c2 : Cap),
      it.next = (some c, it2) → it2.next = (some c2, it3) →
      c.val < c2.val) := by
  have h64 : ∀ s : CapSet, s.valid → s.bits < 2 ^ 64 := valid_lt_64
  refine ⟨?_, ?_, ?_, ?_, ?_⟩
  · intro s hval
    constructor
    · intro h0
      show (if (0 : Nat) < bitLen s.bits then Cap.from_u8 (bitLen s.bits - 1)
        else none) = none
      rw [h0, bitLen_zero_val, if_neg (by omega)]
    · intro h0
      obtain ⟨hle, h1⟩ := bitLenAux_le 64 s.bits h0 (h64 s hval)
      have hlt : bitLen s.bits - 1 < NUM_CAPS :=
        bitLen_le_of_lt s.bits NUM_CAPS h0 (h64 s hval) hval
      refine ⟨⟨bitLen s.bits - 1, hlt⟩, ?_, ?_, ?_⟩
      · show (if (0 : Nat) < bitLen s.bits then Cap.from_u8 (bitLen s.bits - 1)
          else none) = _
        rw [if_pos (by
          show 0 < bitLen s.bits
          have e : bitLen s.bits = bitLenAux 64 s.bits := rfl
          omega), from_u8_of_lt _ hlt]
      · rw [has_eq_testBit]
        exact bitLen_testBit_top s.bits h0 (h64 s hval)
      · intro d hd
        rw [has_eq_testBit] at hd
        have hbound := bitLen_testBit_bound s.bits d.val (h64 s hval) hd
        show d.val ≤ bitLen s.bits - 1
        have e : bitLen s.bits = bitLenAux 64 s.bits := rfl
        omega
  · intro s
    show countOnes (s.bits >>> 0) = countOnes s.bits
    rw [Nat.shiftRight_zero]
  · intro it it2 c hval h
    obtain ⟨hset, hi2, hic, htb, hmin⟩ := next_some it c it2 h
    show countOnes (it.set.bits >>> it.i) = countOnes (it2.set.bits >>> it2.i) + 1
    rw [hset, hi2]
    rw [countOnes_shift_congr it.set.bits (h64 _ hval) (c.val - it.i) it.i
      (fun j hj1 hj2 => hmin j hj1 (by omega)),
      show it.i + (c.val - it.i) = c.val by omega]
    exact countOnes_odd_shift it.set.bits (h64 _ hval) c.val htb
  · intro it hval
    constructor
    · intro hnone
      have hpair : it.next = (none, it.next.2) := by
        rw [← hnone]
      obtain ⟨hset, hle2, hmax, hno, hend⟩ := next_none it it.next.2 hpair
      have hnb : ∀ j, it.i ≤ j → j < NUM_CAPS → it.set.bits.testBit j = false := by
        intro j hj1 hj2
        exact hno j hj1 (by omega)
      show countOnes (it.set.bits >>> it.i) = 0
      rw [shiftRight_eq_zero_of_no_bits it.set.bits it.i hval hnb]
      exact countOnesAux_zero_val 64
    · intro hzero
      have hsh : it.set.bits >>> it.i = 0 := by
        have hlt : it.set.bits >>> it.i < 2 ^ 64 := by
          have : it.set.bits >>> it.i ≤ it.set.bits := by
            rw [Nat.shiftRight_eq_div_pow]
            exact Nat.div_le_self _ _
          have := h64 it.set hval
          omega
        exact (countOnes_eq_zero _ hlt).mp hzero
      have hnb : ∀ j, it.i ≤ j → j < NUM_CAPS →
          it.set.bits.testBit j = false := fun j hj1 _ =>
        testBit_false_of_shiftRight_zero it.set.bits it.i j hsh hj1
      show (nextAux NUM_CAPS it.set.bits it.i).1 = none
      rw [nextAux_of_no_bits NUM_CAPS it.set.bits it.i (by omega) hnb]
  · intro it it2 it3 c c2 h1 h2
    obtain ⟨-, hi2, -, -, -⟩ := next_some it c it2 h1
    obtain ⟨-, -, hic2, -, -⟩ := next_some it2 c2 it3 h2
    omega

/-- Witness for C8 at the concrete set with bits 0b101. -/
theorem capset_iterator_behaviour_witness :
    (CapSet.iter ⟨0⟩).last = none ∧
    (CapSet.iter ⟨5⟩).len = (⟨5⟩ : CapSet).size ∧
    (CapSet.iter ⟨5⟩).len = (CapSetIterator.mk ⟨5⟩ 1).len + 1 ∧
    ((CapSetIterator.mk ⟨5⟩ 3).next.1 = none ↔
      (CapSetIterator.mk ⟨5⟩ 3).len = 0) ∧
    (0 : Nat) < 2 :=
  ⟨(capset_iterator_behaviour.1 ⟨0⟩ (by decide)).1 rfl,
   capset_iterator_behaviour.2.1 ⟨5⟩,
   capset_iterator_behaviour.2.2.1 (CapSet.iter ⟨5⟩) ⟨⟨5⟩, 1⟩ ⟨0, by decide⟩
     (by decide) (by decide),
   capset_iterator_behaviour.2.2.2.1 ⟨⟨5⟩, 3⟩ (by decide),
   capset_iterator_behaviour.2.2.2.2 (CapSet.iter ⟨5⟩) ⟨⟨5⟩, 1⟩ ⟨⟨5⟩, 3⟩
     ⟨0, by decide⟩ ⟨2, by decide⟩ (by decide) (by decide)⟩

/-- C10: the iterator is fused: once `next` returns `None` the iterator
state is a fixed point whose remaining length is 0 and on which `next`
keeps returning `None`; moreover the cursor never moves backwards and
never passes `NUM_CAPS`. -/
theorem capset_iterator_fused (it : CapSetIterator) (hval : it.set.valid) :
    (it.next.1 = none →
      it.next.2.len = 0 ∧ it.next.2.next = (none, it.next.2)) ∧
    it.i ≤ it.next.2.i ∧ it.next.2.i ≤ max it.i NUM_CAPS := by
  constructor
  · intro hnone
    have hpair : it.next = (none, it.next.2) := by
      rw [← hnone]
    obtain ⟨hset, hle2, hmax, hno, hend⟩ := next_none it it.next.2 hpair
    have hiN : NUM_CAPS ≤ it.next.2.i := by omega
    constructor
    · show countOnes (it.next.2.set.bits >>> it.next.2.i) = 0
      rw [hset, shiftRight_eq_zero_of_no_bits it.set.bits it.next.2.i hval
        (fun j hj1 hj2 => absurd hj2 (by omega))]
      exact countOnesAux_zero_val 64
    · show ((nextAux NUM_CAPS it.next.2.set.bits it.next.2.i).1,
        (⟨it.next.2.set, (nextAux NUM_CAPS it.next.2.set.bits
          it.next.2.i).2⟩ : CapSetIterator)) = (none, it.next.2)
      rw [nextAux_at_end NUM_CAPS it.next.2.set.bits it.next.2.i hiN]
  · cases hfst : it.next.1 with
    | none =>
      have hpair : it.next = (none, it.next.2) := by
        rw [← hfst]
      obtain ⟨-, g1, g2, -, -⟩ := next_none it it.next.2 hpair
      exact ⟨g1, g2⟩
    | some c =>
      have hpair : it.next = (some c, it.next.2) := by
        rw [← hfst]
      obtain ⟨-, hi2, hic, -, -⟩ := next_some it c it.next.2 hpair
      have := c.isLt
      exact ⟨by omega, by omega⟩

/-- Witness for C10 at concrete iterator states over the set with bits
0b101. -/
theorem capset_iterator_fused_witness :
    ((CapSetIterator.mk ⟨5⟩ 3).next.2.len = 0 ∧
      (CapSetIterator.mk ⟨5⟩ 3).next.2.next =
        (none, (CapSetIterator.mk ⟨5⟩ 3).next.2)) ∧
    ((CapSet.iter ⟨5⟩).i ≤ (CapSet.iter ⟨5⟩).next.2.i ∧
      (CapSet.iter ⟨5⟩).next.2.i ≤ max (CapSet.iter ⟨5⟩).i NUM_CAPS) :=
  ⟨(capset_iterator_fused ⟨⟨5⟩, 3⟩ (by decide)).1 (by decide),
   (capset_iterator_fused (CapSet.iter ⟨5⟩) (by decide)).2⟩
